import Mathlib

/-!
Reference Level-1 kernels and the `zbw` view layer of gonum-blas.

A shallow embedding of `referenceblas/level1double.go` and `zbw/types.go`.

Modelling conventions.

* `float64` is read as exact arithmetic: the kernels are written over an arbitrary
  linearly ordered field `α` (so they run on `ℚ`), and the statements that involve
  `math.Sqrt` / `math.Hypot` are proved over `ℝ` with `Real.sqrt`.
* Go's `int` is `Int`.  In the Level-1 kernels the offsets are bounded by the length of
  a slice under the hypotheses of each statement, so their arithmetic is exact.  The view
  layer receives arbitrary struct fields and extents: there every sum, difference and
  product is reduced to 64-bit two's complement (`wrap64`), as on a 64-bit platform, and
  the values of type `int` are those in `fits64`.
* A slice is a `List`; an access outside `[0, len)` is the run-time panic
  `Panic.indexOutOfRange`.  `make` takes the largest length the run time allocates as
  a parameter and panics above it.
* A `panic(msg)` of the source is the constructor of `Panic` named after the message
  variable.
* A function that panics returns `Except Panic _`; a function that mutates its
  slice arguments returns the new contents of those slices.
* A division of `Drotmg` by a computed value has a result only for a non-zero divisor
  (`fdiv`); otherwise the call ends in `Fault.zeroDivisor`.
* A `for` loop with a counter `i := 0; i < n; i++` is a structural recursion over the
  number of remaining iterations; a loop governed by a condition on a running
  offset carries explicit fuel and returns `none` when the fuel is exhausted.
-/

namespace Blas

/-- Panics of the reference kernels: the three message variables of the source
(`negativeN`, `zeroInc`, `negInc`), the literal message of `Drotm`, and the run-time
index-out-of-range panic of a slice access. -/
inductive Panic where
  | negativeN
  | zeroInc
  | negInc
  | flagNegative2
  | indexOutOfRange
  deriving DecidableEq, Repr

variable {α : Type}

/-- Slice read `x[i]`. -/
def rd (x : List α) (i : Int) : Except Panic α :=
  if i < 0 then .error .indexOutOfRange
  else match x[i.toNat]? with
    | some v => .ok v
    | none => .error .indexOutOfRange

/-- Slice write `x[i] = v`. -/
def wr (x : List α) (i : Int) (v : α) : Except Panic (List α) :=
  if i < 0 then .error .indexOutOfRange
  else if i.toNat < x.length then .ok (x.set i.toNat v)
  else .error .indexOutOfRange

/-- The start offset every two-vector kernel computes:
`var ix int; if incX < 0 { ix = (-n + 1) * incX }`. -/
def startOffset (n inc : Int) : Int :=
  if inc < 0 then (-n + 1) * inc else 0

/-- Loop of `Ddot`: `for i := 0; i < n; i++ { sum += y[iy] * x[ix]; ix += incX; iy += incY }`,
with `k` the number of iterations still to run. -/
def Ddot.loop [Add α] [Mul α] (x : List α) (incX : Int) (y : List α) (incY : Int) :
    Nat → Int → Int → α → Except Panic α
  | 0, _, _, sum => .ok sum
  | k + 1, ix, iy, sum => do
    let yv ← rd y iy
    let xv ← rd x ix
    Ddot.loop x incX y incY k (ix + incX) (iy + incY) (sum + yv * xv)

/-- The kernel `Blas.Ddot`. -/
def Ddot [Add α] [Mul α] [Zero α] (n : Int) (x : List α) (incX : Int) (y : List α) (incY : Int) :
    Except Panic α :=
  if n < 0 then .error .negativeN
  else if incX = 0 ∨ incY = 0 then .error .zeroInc
  else Ddot.loop x incX y incY n.toNat (startOffset n incX) (startOffset n incY) 0

/-- Loop of `Dnrm2`: `for ix := 0; ix < n*incX; ix += incX`, with explicit fuel.
`continue` still runs the post statement `ix += incX`. -/
def Dnrm2.loop [LinearOrderedField α] (sqrt : α → α) (n : Int) (x : List α) (incX : Int) :
    Nat → Int → α → α → Option (Except Panic α)
  | 0, _, _, _ => none
  | fuel + 1, ix, scale, sumSquares =>
    if ix < n * incX then
      match rd x ix with
      | .error e => some (.error e)
      | .ok val =>
        if val = 0 then Dnrm2.loop sqrt n x incX fuel (ix + incX) scale sumSquares
        else
          let absxi := |val|
          if scale < absxi then
            Dnrm2.loop sqrt n x incX fuel (ix + incX) absxi
              (1 + sumSquares * (scale / absxi) * (scale / absxi))
          else
            Dnrm2.loop sqrt n x incX fuel (ix + incX) scale
              (sumSquares + (absxi / scale) * (absxi / scale))
    else some (.ok (scale * sqrt sumSquares))

/-- The kernel `Blas.Dnrm2`; `sqrt` stands for `math.Sqrt`, `fuel` bounds the loop. -/
def Dnrm2 [LinearOrderedField α] (sqrt : α → α) (fuel : Nat) (n : Int) (x : List α) (incX : Int) :
    Option (Except Panic α) :=
  if incX < 1 then
    if incX = 0 then some (.error .zeroInc) else some (.error .negInc)
  else
    let rest := Dnrm2.loop sqrt n x incX fuel 0 0 1
    if n < 2 then
      if n = 1 then
        match rd x 0 with
        | .error e => some (.error e)
        | .ok v => some (.ok |v|)
      else if n = 0 then some (.ok 0)
      else if n < 1 then some (.error .negativeN)
      else rest
    else rest

/-- Loop of `Dasum`: `for i := 0; i < n; i++ { sum += math.Abs(x[i*incX]) }`. -/
def Dasum.loop [LinearOrderedRing α] (x : List α) (incX : Int) :
    Nat → Int → α → Except Panic α
  | 0, _, sum => .ok sum
  | k + 1, i, sum =>
    match rd x (i * incX) with
    | .error e => .error e
    | .ok v => Dasum.loop x incX k (i + 1) (sum + |v|)

/-- The kernel `Blas.Dasum`. -/
def Dasum [LinearOrderedRing α] (n : Int) (x : List α) (incX : Int) : Except Panic α :=
  if n < 0 then .error .negativeN
  else if incX = 0 then .error .zeroInc
  else if incX < 0 then .error .negInc
  else Dasum.loop x incX n.toNat 0 0

/-- Loop of `Idamax`: `for i := 1; i < n; i++ { v := x[i*incX]; if v > max { max = v; idx = i * incX } }`. -/
def Idamax.loop [LinearOrder α] (x : List α) (incX : Int) :
    Nat → Int → α → Int → Except Panic Int
  | 0, _, _, idx => .ok idx
  | k + 1, i, max, idx =>
    match rd x (i * incX) with
    | .error e => .error e
    | .ok v =>
      if v > max then Idamax.loop x incX k (i + 1) v (i * incX)
      else Idamax.loop x incX k (i + 1) max idx

/-- The kernel `Blas.Idamax`. -/
def Idamax [LinearOrder α] (n : Int) (x : List α) (incX : Int) : Except Panic Int :=
  if incX < 1 then
    if incX = 0 then .error .zeroInc else .error .negInc
  else
    let rest : Except Panic Int :=
      match rd x 0 with
      | .error e => .error e
      | .ok max => Idamax.loop x incX (n - 1).toNat 1 max 0
    if n < 2 then
      if n = 1 then .ok 0
      else if n = 0 then .ok 0
      else if n < 1 then .error .negativeN
      else rest
    else rest

/-- Loop of `Dswap`: `x[ix], y[iy] = y[iy], x[ix]` then both offsets advance.  The two
slices are distinct buffers. -/
def Dswap.loop (incX incY : Int) :
    Nat → Int → Int → List α → List α → Except Panic (List α × List α)
  | 0, _, _, x, y => .ok (x, y)
  | k + 1, ix, iy, x, y =>
    match rd y iy with
    | .error e => .error e
    | .ok yv =>
      match rd x ix with
      | .error e => .error e
      | .ok xv =>
        match wr x ix yv with
        | .error e => .error e
        | .ok x1 =>
          match wr y iy xv with
          | .error e => .error e
          | .ok y1 => Dswap.loop incX incY k (ix + incX) (iy + incY) x1 y1

/-- The kernel `Blas.Dswap`; returns the contents of `x` and `y` after the call. -/
def Dswap (n : Int) (x : List α) (incX : Int) (y : List α) (incY : Int) :
    Except Panic (List α × List α) :=
  if n < 1 then
    if n = 0 then .ok (x, y) else .error .negativeN
  else if incX = 0 ∨ incY = 0 then .error .zeroInc
  else Dswap.loop incX incY n.toNat (startOffset n incX) (startOffset n incY) x y

/-- Exact reading of `math.Copysign(r, a)` for a non-zero sign argument (a real zero
carries no sign bit; it is read as `+0`). -/
def copysign [LinearOrderedRing α] (r a : α) : α :=
  if a < 0 then -|r| else |r|

/-- Exact reading of `math.Hypot(a, b)`. -/
def hypot [Add α] [Mul α] (sqrt : α → α) (a b : α) : α :=
  sqrt (a * a + b * b)

/-- The kernel `Blas.Drotg`; the result is `(c, s, r, z)`. -/
def Drotg [LinearOrderedField α] (sqrt : α → α) (a b : α) : α × α × α × α :=
  if b = 0 ∧ a = 0 then (1, 0, a, 0)
  else
    let absA := |a|
    let absB := |b|
    let aGTb : Bool := decide (absA > absB)
    let r0 := hypot sqrt a b
    let r := if aGTb then copysign r0 a else copysign r0 b
    let c := a / r
    let s := b / r
    let z := if aGTb then s else if c ≠ 0 then 1 / c else 1
    (c, s, r, z)

/-- Loop of `Drot`: `x[ix], y[iy] = c*x[ix]+s*y[iy], c*y[iy]-s*x[ix]`. -/
def Drot.loop [Add α] [Sub α] [Mul α] (incX incY : Int) (c s : α) :
    Nat → Int → Int → List α → List α → Except Panic (List α × List α)
  | 0, _, _, x, y => .ok (x, y)
  | k + 1, ix, iy, x, y =>
    match rd x ix with
    | .error e => .error e
    | .ok xv =>
      match rd y iy with
      | .error e => .error e
      | .ok yv =>
        match wr x ix (c * xv + s * yv) with
        | .error e => .error e
        | .ok x1 =>
          match wr y iy (c * yv - s * xv) with
          | .error e => .error e
          | .ok y1 => Drot.loop incX incY c s k (ix + incX) (iy + incY) x1 y1

/-- The kernel `Blas.Drot`; returns the contents of `x` and `y` after the call. -/
def Drot [Add α] [Sub α] [Mul α] (n : Int) (x : List α) (incX : Int) (y : List α) (incY : Int)
    (c s : α) : Except Panic (List α × List α) :=
  if n < 1 then
    if n = 0 then .ok (x, y) else .error .negativeN
  else if incX = 0 ∨ incY = 0 then .error .zeroInc
  else Drot.loop incX incY c s n.toNat (startOffset n incX) (startOffset n incY) x y

/-- Loop of `Dscal`: `for ix := 0; ix < n*incX; ix += incX { x[ix] *= alpha }`, with
explicit fuel. -/
def Dscal.loop [Mul α] (n : Int) (alpha : α) (incX : Int) :
    Nat → Int → List α → Option (Except Panic (List α))
  | 0, _, _ => none
  | fuel + 1, ix, x =>
    if ix < n * incX then
      match rd x ix with
      | .error e => some (.error e)
      | .ok v =>
        match wr x ix (v * alpha) with
        | .error e => some (.error e)
        | .ok x1 => Dscal.loop n alpha incX fuel (ix + incX) x1
    else some (.ok x)

/-- The kernel `Blas.Dscal`; returns the contents of `x` after the call, `fuel` bounds the loop. -/
def Dscal [Mul α] (fuel : Nat) (n : Int) (alpha : α) (x : List α) (incX : Int) :
    Option (Except Panic (List α)) :=
  if incX < 1 then
    if incX = 0 then some (.error .zeroInc) else some (.error .negInc)
  else
    let rest := Dscal.loop n alpha incX fuel 0 x
    if n < 1 then
      if n = 0 then some (.ok x)
      else if n < 1 then some (.error .negativeN)
      else rest
    else rest

/-- Loop of `Dcopy`: `y[iy] = x[ix]` then both offsets advance. -/
def Dcopy.loop (x : List α) (incX incY : Int) :
    Nat → Int → Int → List α → Except Panic (List α)
  | 0, _, _, y => .ok y
  | k + 1, ix, iy, y =>
    match rd x ix with
    | .error e => .error e
    | .ok xv =>
      match wr y iy xv with
      | .error e => .error e
      | .ok y1 => Dcopy.loop x incX incY k (ix + incX) (iy + incY) y1

/-- The kernel `Blas.Dcopy`; returns the contents of `y` after the call. -/
def Dcopy (n : Int) (x : List α) (incX : Int) (y : List α) (incY : Int) :
    Except Panic (List α) :=
  if n < 1 then
    if n = 0 then .ok y else .error .negativeN
  else if incX = 0 ∨ incY = 0 then .error .zeroInc
  else Dcopy.loop x incX incY n.toNat (startOffset n incX) (startOffset n incY) y

/-- Modelled from the spec: `blas.DrotmParams` is declared in `github.com/gonum/blas`,
which is not among the sources.  The spec describes it as a discriminant flag plus a 2×2
coefficient matrix `H`; the kernels read and write it as `p.Flag` (compared with `-2`,
`-1`, `0`, `1`) and `p.H[0]` … `p.H[3]`, here the fields `H0` … `H3`. -/
structure DrotmParams (α : Type) where
  Flag : Int
  H0 : α
  H1 : α
  H2 : α
  H3 : α

/-- Ways in which `Drotmg` leaves exact arithmetic or fails to return: a division whose
divisor is zero, and a rescaling loop that has not exited when the fuel is spent. -/
inductive Fault where
  | zeroDivisor
  | outOfFuel
  deriving DecidableEq, Repr

/-- Exact division `a / b` by a computed divisor: it has a value only for `b ≠ 0`. -/
def fdiv [Field α] [DecidableEq α] (a b : α) : Except Fault α :=
  if b = 0 then .error .zeroDivisor else .ok (a / b)

/-- First rescaling loop of `Drotmg`: `for rd1 <= rgamsq || rd1 >= gamsq { ... }`, on the
state `(p, rd1, rx1)`; the divisions are by the non-zero constants `gam`, `gam * gam`. -/
def Drotmg.rescale1 [LinearOrderedField α] (gam gamsq rgamsq : α) :
    Nat → DrotmParams α → α → α → Except Fault (DrotmParams α × α × α)
  | 0, _, _, _ => .error .outOfFuel
  | fuel + 1, p, rd1, rx1 =>
    if rd1 ≤ rgamsq ∨ rd1 ≥ gamsq then
      let p1 : DrotmParams α :=
        if p.Flag = 0 then { p with H0 := 1, H3 := 1, Flag := -1 }
        else { p with H1 := -1, H2 := 1, Flag := -1 }
      if rd1 ≤ rgamsq then
        Drotmg.rescale1 gam gamsq rgamsq fuel
          { p1 with H0 := p1.H0 / gam, H2 := p1.H2 / gam } (rd1 * (gam * gam)) (rx1 / gam)
      else
        Drotmg.rescale1 gam gamsq rgamsq fuel
          { p1 with H0 := p1.H0 * gam, H2 := p1.H2 * gam } (rd1 / (gam * gam)) (rx1 * gam)
    else .ok (p, rd1, rx1)

/-- Second rescaling loop of `Drotmg`:
`for math.Abs(rd2) <= rgamsq || math.Abs(rd2) >= gamsq { ... }`, on the state `(p, rd2)`. -/
def Drotmg.rescale2 [LinearOrderedField α] (gam gamsq rgamsq : α) :
    Nat → DrotmParams α → α → Except Fault (DrotmParams α × α)
  | 0, _, _ => .error .outOfFuel
  | fuel + 1, p, rd2 =>
    if |rd2| ≤ rgamsq ∨ |rd2| ≥ gamsq then
      let p1 : DrotmParams α :=
        if p.Flag = 0 then { p with H0 := 1, H3 := 1, Flag := -1 }
        else { p with H1 := -1, H2 := 1, Flag := -1 }
      if |rd2| ≤ rgamsq then
        Drotmg.rescale2 gam gamsq rgamsq fuel
          { p1 with H1 := p1.H1 / gam, H3 := p1.H3 / gam } (rd2 * (gam * gam))
      else
        Drotmg.rescale2 gam gamsq rgamsq fuel
          { p1 with H1 := p1.H1 * gam, H3 := p1.H3 * gam } (rd2 / (gam * gam))
    else .ok (p, rd2)

/-- The kernel `Blas.Drotmg`; the result is `(p, rd1, rd2, rx1)`, `fuel` bounds each of
the two rescaling loops.  The named results start at their zero values. -/
def Drotmg [LinearOrderedField α] (fuel : Nat) (d1 d2 x1 y1 : α) :
    Except Fault (DrotmParams α × α × α × α) :=
  let gam : α := 4096
  let gamsq : α := 16777216
  let rgamsq : α := 59604645 / 1000000000000000
  let p : DrotmParams α := ⟨0, 0, 0, 0, 0⟩
  if d1 < 0 then .ok ({ p with Flag := -1 }, 0, 0, 0)
  else
    let p2 := d2 * y1
    if p2 = 0 then .ok ({ p with Flag := -2 }, d1, d2, x1)
    else
      let p1 := d1 * x1
      let q2 := p2 * y1
      let q1 := p1 * x1
      let absQ1 := |q1|
      let absQ2 := |q2|
      if absQ1 < absQ2 ∧ q2 < 0 then .ok ({ p with Flag := -1 }, 0, 0, 0)
      else if d1 = 0 then do
        let h0 ← fdiv p1 p2
        let h3 ← fdiv x1 y1
        let u := 1 + h0 * h3
        let rd1 ← fdiv d2 u
        let rd2 ← fdiv d1 u
        let rx1 ← fdiv y1 u
        .ok ({ p with Flag := 1, H0 := h0, H3 := h3 }, rd1, rd2, rx1)
      else do
        let (pa, rd1, rd2, rx1) ←
          (if |q1| > |q2| then do
            let h1 ← fdiv (-y1) x1
            let h2 ← fdiv p2 p1
            let u := 1 - h2 * h1
            let rd1 ← fdiv d1 u
            let rd2 ← fdiv d2 u
            .ok ({ p with H1 := h1, H2 := h2, Flag := 0 }, rd1, rd2, x1 * u)
          else do
            let h0 ← fdiv p1 p2
            let h3 ← fdiv x1 y1
            let u := 1 + h0 * h3
            let rd1 ← fdiv d2 u
            let rd2 ← fdiv d1 u
            .ok ({ p with Flag := 1, H0 := h0, H3 := h3 }, rd1, rd2, y1 * u)
            : Except Fault (DrotmParams α × α × α × α))
        let (pb, rd1, rx1) ← Drotmg.rescale1 gam gamsq rgamsq fuel pa rd1 rx1
        let (pc, rd2) ← Drotmg.rescale2 gam gamsq rgamsq fuel pb rd2
        .ok (pc, rd1, rd2, rx1)

/-- Loop of the shared-index branch of `Drotm`: `for i := 0; i < nsteps; i += incX`, with
explicit fuel; `f w z` is the pair the body assigns to `(x[i], y[i])`. -/
def Drotm.fastLoop (f : α → α → α × α) (nsteps incX : Int) :
    Nat → Int → List α → List α → Option (Except Panic (List α × List α))
  | 0, _, _, _ => none
  | fuel + 1, i, x, y =>
    if i < nsteps then
      match rd x i with
      | .error e => some (.error e)
      | .ok w =>
        match rd y i with
        | .error e => some (.error e)
        | .ok z =>
          match wr x i (f w z).1 with
          | .error e => some (.error e)
          | .ok x1 =>
            match wr y i (f w z).2 with
            | .error e => some (.error e)
            | .ok y1 => Drotm.fastLoop f nsteps incX fuel (i + incX) x1 y1
    else some (.ok (x, y))

/-- Loop of the general branch of `Drotm`: `for i := 0; i < n; i++` with the two offsets
`ix`, `iy`; `f w z` is the pair the body assigns to `(x[ix], y[iy])`. -/
def Drotm.loop (f : α → α → α × α) (incX incY : Int) :
    Nat → Int → Int → List α → List α → Except Panic (List α × List α)
  | 0, _, _, x, y => .ok (x, y)
  | k + 1, ix, iy, x, y =>
    match rd x ix with
    | .error e => .error e
    | .ok w =>
      match rd y iy with
      | .error e => .error e
      | .ok z =>
        match wr x ix (f w z).1 with
        | .error e => .error e
        | .ok x1 =>
          match wr y iy (f w z).2 with
          | .error e => .error e
          | .ok y1 => Drotm.loop f incX incY k (ix + incX) (iy + incY) x1 y1

/-- The general path of `Drotm`: the code after the shared-index branch, from
`ix := 0; iy := 0` to the end. -/
def Drotm.general [Add α] [Mul α] [Neg α] (n : Int) (x : List α) (incX : Int) (y : List α)
    (incY : Int) (p : DrotmParams α) : Except Panic (List α × List α) :=
  let ix := startOffset n incX
  let iy := startOffset n incY
  if p.Flag < 0 then
    Drotm.loop (fun w z => (w * p.H0 + z * p.H2, w * p.H1 + z * p.H3))
      incX incY n.toNat ix iy x y
  else if p.Flag = 0 then
    Drotm.loop (fun w z => (w + z * p.H2, w * p.H1 + z)) incX incY n.toNat ix iy x y
  else
    Drotm.loop (fun w z => (w * p.H0 + z, -w + z * p.H3)) incX incY n.toNat ix iy x y

/-- The kernel `Blas.Drotm`; returns the contents of `x` and `y` after the call, `fuel`
bounds the loops of the shared-index branch. -/
def Drotm [Add α] [Mul α] [Neg α] (fuel : Nat) (n : Int) (x : List α) (incX : Int)
    (y : List α) (incY : Int) (p : DrotmParams α) :
    Option (Except Panic (List α × List α)) :=
  if n ≤ 0 then
    if n = 0 then some (.ok (x, y)) else some (.error .negativeN)
  else if incX = 0 ∨ incY = 0 then some (.error .zeroInc)
  else if p.Flag = -2 then some (.error .flagNegative2)
  else if incX = incY ∧ incX > 0 then
    let nsteps := n * incX
    if p.Flag < 0 then
      Drotm.fastLoop (fun w z => (w * p.H0 + z * p.H2, w * p.H1 + z * p.H3))
        nsteps incX fuel 0 x y
    else if p.Flag = 0 then
      Drotm.fastLoop (fun w z => (w + z * p.H2, w * p.H1 + z)) nsteps incX fuel 0 x y
    else
      Drotm.fastLoop (fun w z => (w * p.H0 + z, -w + p.H3 * z)) nsteps incX fuel 0 x y
  else some (Drotm.general n x incX y incY p)

/-- Offset of the `k`-th logical element of an `n`-vector with increment `inc`, in the
words of the specification: `k*inc` forwards, `(n-1-k)*|inc|` backwards. -/
def logicalOffset (n inc : Int) (k : Nat) : Int :=
  if 0 < inc then k * inc else (n - 1 - k) * |inc|

/-- The `k`-th logical element of the vector `(n, x, inc)`. -/
def logicalElem [Zero α] (n : Int) (x : List α) (inc : Int) (k : Nat) : α :=
  x.getD (logicalOffset n inc k).toNat 0

end Blas

namespace Zbw

/-- Modelled from the spec: `blas.Order` is declared in `github.com/gonum/blas`, which is
not among the sources.  The spec gives the order tag two recognised values, row-major
and column-major; every other value of the underlying integer is an unrecognised
order. -/
inductive Order where
  | RowMajor
  | ColMajor
  | unrecognized (tag : Int)
  deriving DecidableEq, Repr

/-- The errors `Check` builds with `errors.New`, in the order of the source:
"blas: n < 0", "blas: m < 0", "blas: illegal stride",
"blas: insufficient amount of data", "blas: illegal order". -/
inductive CheckError where
  | nNegative
  | mNegative
  | illegalStride
  | insufficientData
  | illegalOrder
  deriving DecidableEq, Repr

/-- Panics of the view layer: `must(err)` with a non-nil error, the run-time panic
of `make` with a negative length, the messages "blas: index out of range",
"blas: illegal order", "blas: r < 0 or c < 0" and "blas: invalid slice index:" of the
accessors, and the run-time panic of a slice expression out of bounds. -/
inductive Panic where
  | check (e : CheckError)
  | makeslice
  | indexOutOfRange
  | illegalOrder
  | negativeExtent
  | invalidSliceIndex
  | sliceBounds
  deriving DecidableEq, Repr

/-- The record `type General struct { Order; Rows, Cols; Stride; Data }`, over any scalar type. -/
structure General (β : Type) where
  Order : Zbw.Order
  Rows : Int
  Cols : Int
  Stride : Int
  Data : List β

variable {β : Type}

/-- Go's `int` on a 64-bit platform: the exact result `z` of an operation, reduced to
two's complement in `[-2^63, 2^63)`. -/
def wrap64 (z : Int) : Int :=
  (z + 9223372036854775808) % 18446744073709551616 - 9223372036854775808

/-- The product `a * b` of two `int`s. -/
def imul (a b : Int) : Int := wrap64 (a * b)

/-- The sum `a + b` of two `int`s. -/
def iadd (a b : Int) : Int := wrap64 (a + b)

/-- The difference `a - b` of two `int`s. -/
def isub (a b : Int) : Int := wrap64 (a - b)

/-- The values of type `int`: `z` lies in `[-2^63, 2^63)`. -/
def fits64 (z : Int) : Prop :=
  -9223372036854775808 ≤ z ∧ z < 9223372036854775808

instance (z : Int) : Decidable (fits64 z) :=
  inferInstanceAs (Decidable (-9223372036854775808 ≤ z ∧ z < 9223372036854775808))

/-- The allocation `make([]complex128, len)`: a zero-initialised slice; the run-time panic
"makeslice: len out of range" for a negative length and for a length above `maxLen`, the
largest length the run time allocates (a property of the platform, not of the sources). -/
def make [Zero β] (maxLen : Nat) (len : Int) : Except Panic (List β) :=
  if len < 0 ∨ (maxLen : Int) < len then .error .makeslice
  else .ok (List.replicate len.toNat 0)

/-- The helper `must(err)`. -/
def must (err : Option CheckError) : Except Panic Unit :=
  match err with
  | none => .ok ()
  | some e => .error (.check e)

/-- The method `General.Check`; `none` is the `nil` error. -/
def General.Check (A : General β) : Option CheckError :=
  if A.Cols < 0 then some .nNegative
  else if A.Rows < 0 then some .mNegative
  else if A.Stride < 1 then some .illegalStride
  else if A.Order = .ColMajor then
    if A.Stride < A.Rows then some .illegalStride
    else if iadd (imul (isub A.Cols 1) A.Stride) A.Rows > A.Data.length then
      some .insufficientData
    else none
  else if A.Order = .RowMajor then
    if A.Stride < A.Cols then some .illegalStride
    else if iadd (imul (isub A.Rows 1) A.Stride) A.Cols > A.Data.length then
      some .insufficientData
    else none
  else some .illegalOrder

/-- The extent expression that `Check` evaluates for the order of `A`, computed exactly,
stays within `int` at each step (no 64-bit overflow), for extents of type `int`. -/
def General.ExtentFits (A : General β) : Prop :=
  fits64 A.Rows ∧ fits64 A.Cols
    ∧ (A.Order = .RowMajor →
        fits64 ((A.Rows - 1) * A.Stride) ∧ fits64 ((A.Rows - 1) * A.Stride + A.Cols))
    ∧ (A.Order = .ColMajor →
        fits64 ((A.Cols - 1) * A.Stride) ∧ fits64 ((A.Cols - 1) * A.Stride + A.Rows))

instance (A : General β) : Decidable A.ExtentFits :=
  inferInstanceAs (Decidable (_ ∧ _ ∧ (_ → _ ∧ _) ∧ (_ → _ ∧ _)))

/-- The constructor `NewGeneral`; `data = none` is the `nil` slice, `maxLen` is the
allocation limit of `make`. -/
def NewGeneral [Zero β] (maxLen : Nat) (o : Order) (m n : Int) (data : Option (List β)) :
    Except Panic (General β) :=
  let alloc : Except Panic (List β) :=
    match data with
    | none => make maxLen (imul m n)
    | some d => .ok d
  match alloc with
  | .error e => .error e
  | .ok d =>
    let A : General β := if o = .RowMajor then ⟨o, m, n, n, d⟩ else ⟨o, m, n, m, d⟩
    match must A.Check with
    | .error e => .error e
    | .ok _ => .ok A

/-- The errors `Vector.Check` builds with `errors.New`, in the order of the source:
"blas: n < 0", "blas: zero x index increment", "blas: index out of range". -/
inductive VectorError where
  | nNegative
  | zeroIncrement
  | indexOutOfRange
  deriving DecidableEq, Repr

/-- The record `type Vector struct { Data; N; Inc }`. -/
structure Vector (β : Type) where
  Data : List β
  N : Int
  Inc : Int

/-- The slice expression `s[low:]`: the slice that starts at `low` and shares the
buffer of `s`; a run-time panic unless `0 ≤ low ≤ len(s)`. -/
def sliceFrom (s : List β) (low : Int) : Except Panic (List β) :=
  if low < 0 ∨ (s.length : Int) < low then .error .sliceBounds
  else .ok (s.drop low.toNat)

/-- The method `General.Index`. -/
def General.Index (A : General β) (i j : Int) : Int :=
  if A.Order = .RowMajor then iadd (imul i A.Stride) j else iadd i (imul j A.Stride)

/-- The method `General.Row`. -/
def General.Row (A : General β) (i : Int) : Except Panic (Vector β) :=
  if i ≥ A.Rows ∨ i < 0 then .error .indexOutOfRange
  else if A.Order = .RowMajor then
    match sliceFrom A.Data (imul A.Stride i) with
    | .error e => .error e
    | .ok d => .ok ⟨d, A.Cols, 1⟩
  else if A.Order = .ColMajor then
    match sliceFrom A.Data i with
    | .error e => .error e
    | .ok d => .ok ⟨d, A.Cols, A.Stride⟩
  else .error .illegalOrder

/-- The method `General.Col`. -/
def General.Col (A : General β) (i : Int) : Except Panic (Vector β) :=
  if i ≥ A.Cols ∨ i < 0 then .error .indexOutOfRange
  else if A.Order = .RowMajor then
    match sliceFrom A.Data i with
    | .error e => .error e
    | .ok d => .ok ⟨d, A.Rows, A.Stride⟩
  else if A.Order = .ColMajor then
    match sliceFrom A.Data (imul A.Stride i) with
    | .error e => .error e
    | .ok d => .ok ⟨d, A.Rows, 1⟩
  else .error .illegalOrder

/-- The method `General.Sub`.  The second guard is the one of the source:
`j >= A.Cols || i < 0`. -/
def General.Sub (A : General β) (i j r c : Int) : Except Panic (General β) :=
  match must A.Check with
  | .error e => .error e
  | .ok _ =>
    if i ≥ A.Rows ∨ i < 0 then .error .indexOutOfRange
    else if j ≥ A.Cols ∨ i < 0 then .error .indexOutOfRange
    else if r < 0 ∨ c < 0 then .error .negativeExtent
    else
      match sliceFrom A.Data (A.Index i j) with
      | .error e => .error e
      | .ok d => .ok ⟨A.Order, r, c, A.Stride, d⟩

/-- The method `Vector.Slice`.  The second guard is the one of the source: `r > l`. -/
def Vector.Slice (v : Vector β) (l r : Int) : Except Panic (Vector β) :=
  if l < 0 ∨ r > v.N then .error .indexOutOfRange
  else if r > l then .error .invalidSliceIndex
  else
    match sliceFrom v.Data (imul l v.Inc) with
    | .error e => .error e
    | .ok d => .ok ⟨d, isub r l, v.Inc⟩

/-- The method `Vector.Check`; `none` is the `nil` error. -/
def Vector.Check (v : Vector β) : Option VectorError :=
  if v.N < 0 then some .nNegative
  else if v.Inc = 0 then some .zeroIncrement
  else if imul (isub v.N 1) v.Inc ≥ v.Data.length then some .indexOutOfRange
  else none

end Zbw

/-! ## Theorems -/

namespace Blas
variable {α : Type}

theorem rd_eq_ok (d : α) (x : List α) (i : Int) (h0 : 0 ≤ i) (h1 : i < x.length) :
    rd x i = .ok (x.getD i.toNat d) := by
  have h2 : i.toNat < x.length := by omega
  simp [rd, not_lt.mpr h0, List.getD_eq_getElem?_getD, List.getElem?_eq_getElem h2]

theorem startOffset_add (n inc : Int) (k : Nat) (hinc : inc ≠ 0) :
    startOffset n inc + k * inc = logicalOffset n inc k := by
  unfold startOffset logicalOffset
  rcases lt_or_gt_of_ne hinc with h | h
  · rw [if_pos h, if_neg (by omega), abs_of_neg h]; ring
  · rw [if_neg (by omega), if_pos h]; ring

theorem logicalOffset_bounds (n inc : Int) (k : Nat) (hinc : inc ≠ 0) (hk : (k : Int) < n) :
    0 ≤ logicalOffset n inc k ∧ logicalOffset n inc k ≤ (n - 1) * |inc| := by
  unfold logicalOffset
  have habs : 0 < |inc| := abs_pos.mpr hinc
  split
  · rename_i h
    rw [abs_of_pos h]
    constructor
    · positivity
    · nlinarith
  · constructor
    · apply mul_nonneg <;> omega
    · nlinarith

theorem Ddot_loop_eq [CommSemiring α] (x : List α) (incX : Int) (y : List α) (incY : Int) :
    ∀ (k : Nat) (ix iy : Int) (sum : α),
      (∀ i : Nat, i < k → 0 ≤ ix + i * incX ∧ ix + i * incX < x.length) →
      (∀ i : Nat, i < k → 0 ≤ iy + i * incY ∧ iy + i * incY < y.length) →
      Ddot.loop x incX y incY k ix iy sum =
        .ok (sum + ∑ i in Finset.range k,
          x.getD (ix + i * incX).toNat 0 * y.getD (iy + i * incY).toNat 0) := by
  intro k
  induction k with
  | zero => intro ix iy sum _ _; simp [Ddot.loop]
  | succ k ih =>
    intro ix iy sum hx hy
    have hx0 := hx 0 (Nat.succ_pos k)
    have hy0 := hy 0 (Nat.succ_pos k)
    simp only [Nat.cast_zero, zero_mul, add_zero] at hx0 hy0
    rw [Ddot.loop, rd_eq_ok 0 y iy hy0.1 hy0.2, rd_eq_ok 0 x ix hx0.1 hx0.2]
    simp only [bind, Except.bind]
    rw [ih]
    · rw [Finset.sum_range_succ']
      simp only [Nat.cast_zero, zero_mul, add_zero, Nat.cast_add, Nat.cast_one]
      congr 1
      rw [add_assoc, add_comm (y.getD iy.toNat 0 * x.getD ix.toNat 0), mul_comm (y.getD iy.toNat 0)]
      congr 2
      apply Finset.sum_congr rfl
      intro i _
      congr 3 <;> ring
    · intro i hi
      have := hx (i + 1) (Nat.succ_lt_succ hi)
      push_cast at this
      constructor <;> linarith [this.1, this.2]
    · intro i hi
      have := hy (i + 1) (Nat.succ_lt_succ hi)
      push_cast at this
      constructor <;> linarith [this.1, this.2]

end Blas

namespace Blas
variable {α : Type}

theorem Ddot_eq_logical [CommSemiring α] (n : Int) (x : List α) (incX : Int) (y : List α)
    (incY : Int) (hn : 0 ≤ n) (hX : incX ≠ 0) (hY : incY ≠ 0)
    (hx : (n - 1) * |incX| < x.length) (hy : (n - 1) * |incY| < y.length) :
    Ddot n x incX y incY =
      .ok (∑ k in Finset.range n.toNat, logicalElem n x incX k * logicalElem n y incY k) := by
  unfold Ddot
  rw [if_neg (not_lt.mpr hn), if_neg (by simp [hX, hY])]
  rw [Ddot_loop_eq]
  · simp only [zero_add, logicalElem, startOffset_add n incX _ hX, startOffset_add n incY _ hY]
  · intro i hi
    rw [startOffset_add n incX i hX]
    have := logicalOffset_bounds n incX i hX (by omega)
    omega
  · intro i hi
    rw [startOffset_add n incY i hY]
    have := logicalOffset_bounds n incY i hY (by omega)
    omega

theorem logicalElem_neg_one_eq_reverse [Zero α] (n : Int) (x : List α) (hlen : (x.length : Int) = n)
    (k : Nat) (hk : k < n.toNat) :
    logicalElem n x (-1) k = logicalElem n x.reverse 1 k := by
  have hk2 : k < x.length := by omega
  simp only [logicalElem, logicalOffset]
  rw [if_neg (by decide), if_pos (by decide)]
  simp only [abs_neg, abs_one, mul_one, Int.toNat_ofNat, List.getD_eq_getElem?_getD]
  rw [List.getElem?_reverse hk2]
  congr 2
  omega

/-- C1: `Ddot` returns the sum of the products of the logical elements (exact
arithmetic), `0` for `n = 0`, the plain sum of `x[i]*y[i]` for unit increments, and
traversing `x` with increment `-1` equals traversing `reverse x` with increment `1`. -/
theorem Ddot_eq_reference_sum [CommSemiring α] (n : Int) (x : List α) (incX : Int)
    (y : List α) (incY : Int) (hn : 0 ≤ n) (hX : incX ≠ 0) (hY : incY ≠ 0)
    (hx : (n - 1) * |incX| < x.length) (hy : (n - 1) * |incY| < y.length) :
    Ddot n x incX y incY =
        .ok (∑ k in Finset.range n.toNat, logicalElem n x incX k * logicalElem n y incY k)
      ∧ (n = 0 → Ddot n x incX y incY = .ok 0)
      ∧ (n - 1 < x.length → n - 1 < y.length →
          Ddot n x 1 y 1 = .ok (∑ i in Finset.range n.toNat, x.getD i 0 * y.getD i 0))
      ∧ ((x.length : Int) = n → (y.length : Int) = n →
          Ddot n x (-1) y 1 = Ddot n x.reverse 1 y 1) := by
  refine ⟨Ddot_eq_logical n x incX y incY hn hX hY hx hy, ?_, ?_, ?_⟩
  · intro h0
    rw [Ddot_eq_logical n x incX y incY hn hX hY hx hy, h0]
    simp
  · intro h1 h2
    rw [Ddot_eq_logical n x 1 y 1 hn one_ne_zero one_ne_zero (by simpa using h1)
      (by simpa using h2)]
    simp [logicalElem, logicalOffset]
  · intro h1 h2
    rw [Ddot_eq_logical n x (-1) y 1 hn (by decide) one_ne_zero (by simp; omega)
      (by simp; omega)]
    rw [Ddot_eq_logical n x.reverse 1 y 1 hn one_ne_zero one_ne_zero (by simp; omega)
      (by simp; omega)]
    congr 1
    apply Finset.sum_congr rfl
    intro k hk
    rw [logicalElem_neg_one_eq_reverse n x h1 k (Finset.mem_range.mp hk)]

theorem Ddot_eq_reference_sum_witness :
    Ddot 3 [1, 2, 3, 4, (5 : Int)] (-2) [1, 0, 2] 1 = .ok 7 :=
  (Ddot_eq_reference_sum 3 [1, 2, 3, 4, (5 : Int)] (-2) [1, 0, 2] 1 (by decide) (by decide)
    (by decide) (by decide) (by decide)).1.trans (congrArg Except.ok (by decide))

end Blas

namespace Blas

theorem Dnrm2_loop_eq (n : Int) (x : List ℝ) (incX : Int) (hinc : 1 ≤ incX) :
    ∀ (k fuel : Nat) (ix : Int) (scale ss : ℝ),
      k < fuel → ix + k * incX = n * incX → 0 ≤ scale → 0 ≤ ss →
      (∀ i : Nat, i < k → 0 ≤ ix + i * incX ∧ ix + i * incX < x.length) →
      Dnrm2.loop Real.sqrt n x incX fuel ix scale ss =
        some (.ok (Real.sqrt (scale ^ 2 * ss +
          ∑ i in Finset.range k, (x.getD (ix + i * incX).toNat 0) ^ 2))) := by
  intro k
  induction k with
  | zero =>
    intro fuel ix scale ss hf hix hs hss _
    obtain ⟨f, rfl⟩ : ∃ f, fuel = f + 1 := ⟨fuel - 1, by omega⟩
    simp only [Nat.cast_zero, zero_mul, add_zero] at hix
    rw [Dnrm2.loop, if_neg (by omega)]
    simp only [Finset.range_zero, Finset.sum_empty, add_zero]
    rw [Real.sqrt_mul (sq_nonneg scale), Real.sqrt_sq hs]
  | succ k ih =>
    intro fuel ix scale ss hf hix hs hss hb
    obtain ⟨f, rfl⟩ : ∃ f, fuel = f + 1 := ⟨fuel - 1, by omega⟩
    have hb0 := hb 0 (Nat.succ_pos k)
    simp only [Nat.cast_zero, zero_mul, add_zero] at hb0
    have hlt : ix < n * incX := by
      rw [← hix]; push_cast; nlinarith
    have hix1 : ix + incX + k * incX = n * incX := by
      rw [← hix]; push_cast; ring
    have hb1 : ∀ i : Nat, i < k →
        0 ≤ ix + incX + i * incX ∧ ix + incX + i * incX < x.length := by
      intro i hi
      have := hb (i + 1) (Nat.succ_lt_succ hi)
      push_cast at this
      constructor <;> linarith [this.1, this.2]
    have hsum : ∑ i in Finset.range (k + 1), (x.getD (ix + i * incX).toNat 0) ^ 2 =
        (x.getD ix.toNat 0) ^ 2 +
          ∑ i in Finset.range k, (x.getD (ix + incX + i * incX).toNat 0) ^ 2 := by
      rw [Finset.sum_range_succ', add_comm]
      simp only [Nat.cast_zero, zero_mul, add_zero, Nat.cast_add, Nat.cast_one]
      congr 1
      apply Finset.sum_congr rfl
      intro i _
      congr 3
      ring
    rw [Dnrm2.loop, if_pos hlt, rd_eq_ok 0 x ix hb0.1 hb0.2, hsum]
    simp only []
    set val := x.getD ix.toNat 0 with hval
    by_cases hv : val = 0
    · rw [if_pos hv, ih f (ix + incX) scale ss (by omega) hix1 hs hss hb1, hv]
      simp
    · rw [if_neg hv]
      have habs : 0 < |val| := abs_pos.mpr hv
      by_cases hsc : scale < |val|
      · rw [if_pos hsc, ih f (ix + incX) |val| _ (by omega) hix1 habs.le (by positivity) hb1]
        congr 3
        rw [← add_assoc]
        congr 1
        field_simp
        ring
      · rw [if_neg hsc]
        have hs0 : 0 < scale := lt_of_lt_of_le habs (not_lt.mp hsc)
        rw [ih f (ix + incX) scale _ (by omega) hix1 hs (by positivity) hb1]
        congr 3
        rw [← add_assoc]
        congr 1
        field_simp
        ring

end Blas

namespace Blas

theorem Dnrm2_eq (fuel : Nat) (n : Int) (x : List ℝ) (incX : Int) (hn : 0 ≤ n)
    (hinc : 1 ≤ incX) (hx : (n - 1) * incX < x.length) (hfuel : n < fuel) :
    Dnrm2 Real.sqrt fuel n x incX =
      some (.ok (Real.sqrt (∑ k in Finset.range n.toNat,
        (x.getD ((k : Int) * incX).toNat 0) ^ 2))) := by
  unfold Dnrm2
  rw [if_neg (by omega)]
  simp only []
  by_cases h2 : n < 2
  · rw [if_pos h2]
    by_cases h1 : n = 1
    · subst h1
      rw [if_pos rfl, rd_eq_ok 0 x 0 le_rfl (by simpa using hx)]
      simp [Real.sqrt_sq_eq_abs]
    · have h0 : n = 0 := by omega
      subst h0
      simp
  · rw [if_neg h2, Dnrm2_loop_eq n x incX hinc n.toNat fuel 0 0 1 (by omega)
      (by rw [Int.toNat_of_nonneg hn]; ring) le_rfl zero_le_one]
    · simp
    · intro i hi
      have hi2 : (i : Int) ≤ n - 1 := by omega
      constructor
      · positivity
      · nlinarith

/-- C2: read in exact real arithmetic, `Dnrm2` returns (given enough fuel for its loop)
the Euclidean norm `sqrt (Σ x[k*incX]^2)`; it returns `0` for `n = 0`, `|x[0]|` for
`n = 1`, and exactly `5` on `x = [3, 4]`. -/
theorem Dnrm2_eq_euclidean_norm (fuel : Nat) (n : Int) (x : List ℝ) (incX : Int)
    (hn : 0 ≤ n) (hinc : 1 ≤ incX) (hx : (n - 1) * incX < x.length) (hfuel : n < fuel) :
    Dnrm2 Real.sqrt fuel n x incX =
        some (.ok (Real.sqrt (∑ k in Finset.range n.toNat,
          (x.getD ((k : Int) * incX).toNat 0) ^ 2)))
      ∧ (n = 0 → Dnrm2 Real.sqrt fuel n x incX = some (.ok 0))
      ∧ (n = 1 → Dnrm2 Real.sqrt fuel n x incX = some (.ok |x.getD 0 0|))
      ∧ (2 < fuel → Dnrm2 Real.sqrt fuel 2 [3, 4] 1 = some (.ok 5)) := by
  refine ⟨Dnrm2_eq fuel n x incX hn hinc hx hfuel, ?_, ?_, ?_⟩
  · intro h0
    rw [Dnrm2_eq fuel n x incX hn hinc hx hfuel, h0]
    simp
  · intro h1
    rw [Dnrm2_eq fuel n x incX hn hinc hx hfuel, h1]
    simp [Real.sqrt_sq_eq_abs]
  · intro hf
    rw [Dnrm2_eq fuel 2 [3, 4] 1 (by decide) le_rfl (by simp) (by exact_mod_cast hf)]
    have h25 : ((3 : ℝ) ^ 2 + 4 ^ 2) = 5 ^ 2 := by norm_num
    simp [Finset.sum_range_succ, h25]

theorem Dnrm2_eq_euclidean_norm_witness :
    Dnrm2 Real.sqrt 3 2 [3, 4] 1 = some (.ok 5) :=
  (Dnrm2_eq_euclidean_norm 3 2 [3, 4] 1 (by decide) (by decide) (by simp) (by decide)).2.2.2
    (by decide)

end Blas

namespace Blas
variable {α : Type}

theorem rd_eq_getElem (x : List α) (i : Int) (h0 : 0 ≤ i) (h1 : i.toNat < x.length) :
    rd x i = .ok (x.get ⟨i.toNat, h1⟩) := by
  simp [rd, not_lt.mpr h0, List.getElem?_eq_getElem h1]

theorem wr_eq_set (x : List α) (i : Int) (v : α) (h0 : 0 ≤ i) (h1 : i.toNat < x.length) :
    wr x i v = .ok (x.set i.toNat v) := by
  simp [wr, not_lt.mpr h0, h1]

theorem step_offset (ix inc : Int) (i : Nat) :
    ix + ((i + 1 : Nat) : Int) * inc = ix + inc + i * inc := by
  push_cast; ring

theorem offset_toNat_ne (ix inc : Int) (hinc : inc ≠ 0) (i : Nat)
    (h0 : 0 ≤ ix) (h1 : 0 ≤ ix + inc + i * inc) :
    ix.toNat ≠ (ix + inc + i * inc).toNat := by
  intro h
  have h2 : ix = ix + inc + i * inc := by omega
  have h3 : ((i : Int) + 1) * inc = 0 := by linarith
  rcases mul_eq_zero.mp h3 with h4 | h4
  · omega
  · exact hinc h4

theorem Dswap_loop_spec (incX incY : Int) (hX : incX ≠ 0) (hY : incY ≠ 0) :
    ∀ (k : Nat) (ix iy : Int) (x y : List α),
      (∀ i : Nat, i < k → 0 ≤ ix + i * incX ∧ ix + i * incX < x.length) →
      (∀ i : Nat, i < k → 0 ≤ iy + i * incY ∧ iy + i * incY < y.length) →
      ∃ x1 y1, Dswap.loop incX incY k ix iy x y = .ok (x1, y1) ∧
        x1.length = x.length ∧ y1.length = y.length ∧
        (∀ i : Nat, i < k →
          x1[(ix + i * incX).toNat]? = y[(iy + i * incY).toNat]? ∧
          y1[(iy + i * incY).toNat]? = x[(ix + i * incX).toNat]?) ∧
        (∀ j : Nat, (∀ i : Nat, i < k → j ≠ (ix + i * incX).toNat) → x1[j]? = x[j]?) ∧
        (∀ j : Nat, (∀ i : Nat, i < k → j ≠ (iy + i * incY).toNat) → y1[j]? = y[j]?) := by
  intro k
  induction k with
  | zero =>
    intro ix iy x y _ _
    exact ⟨x, y, rfl, rfl, rfl, fun i hi => absurd hi (Nat.not_lt_zero i),
      fun _ _ => rfl, fun _ _ => rfl⟩
  | succ k ih =>
    intro ix iy x y hx hy
    have hx0 := hx 0 (Nat.succ_pos k)
    have hy0 := hy 0 (Nat.succ_pos k)
    simp only [Nat.cast_zero, zero_mul, add_zero] at hx0 hy0
    have hxn : ix.toNat < x.length := by omega
    have hyn : iy.toNat < y.length := by omega
    have hx1 : ∀ i : Nat, i < k → 0 ≤ ix + incX + i * incX ∧
        ix + incX + i * incX < (x.set ix.toNat (y.get ⟨iy.toNat, hyn⟩)).length := by
      intro i hi
      have := hx (i + 1) (Nat.succ_lt_succ hi)
      rw [step_offset] at this
      simpa using this
    have hy1 : ∀ i : Nat, i < k → 0 ≤ iy + incY + i * incY ∧
        iy + incY + i * incY < (y.set iy.toNat (x.get ⟨ix.toNat, hxn⟩)).length := by
      intro i hi
      have := hy (i + 1) (Nat.succ_lt_succ hi)
      rw [step_offset] at this
      simpa using this
    obtain ⟨x2, y2, hloop, hlx, hly, hsw, hfx, hfy⟩ :=
      ih (ix + incX) (iy + incY) _ _ hx1 hy1
    refine ⟨x2, y2, ?_, ?_, ?_, ?_, ?_, ?_⟩
    · rw [Dswap.loop, rd_eq_getElem y iy hy0.1 hyn, rd_eq_getElem x ix hx0.1 hxn]
      simp only []
      rw [wr_eq_set x ix _ hx0.1 hxn, wr_eq_set y iy _ hy0.1 hyn]
      exact hloop
    · simpa using hlx
    · simpa using hly
    · intro i hi
      cases i with
      | zero =>
        simp only [Nat.cast_zero, zero_mul, add_zero]
        constructor
        · rw [hfx ix.toNat (fun i hi => offset_toNat_ne ix incX hX i hx0.1 (hx1 i hi).1)]
          rw [List.getElem?_set_self hxn, List.getElem?_eq_getElem hyn]
          rfl
        · rw [hfy iy.toNat (fun i hi => offset_toNat_ne iy incY hY i hy0.1 (hy1 i hi).1)]
          rw [List.getElem?_set_self hyn, List.getElem?_eq_getElem hxn]
          rfl
      | succ i =>
        have hi2 : i < k := Nat.lt_of_succ_lt_succ hi
        rw [step_offset, step_offset]
        have h := hsw i hi2
        constructor
        · rw [h.1, List.getElem?_set_ne (offset_toNat_ne iy incY hY i hy0.1 (hy1 i hi2).1)]
        · rw [h.2, List.getElem?_set_ne (offset_toNat_ne ix incX hX i hx0.1 (hx1 i hi2).1)]
    · intro j hj
      rw [hfx j (fun i hi => by
        have := hj (i + 1) (Nat.succ_lt_succ hi)
        rwa [step_offset] at this)]
      have := hj 0 (Nat.succ_pos k)
      simp only [Nat.cast_zero, zero_mul, add_zero] at this
      rw [List.getElem?_set_ne (Ne.symm this)]
    · intro j hj
      rw [hfy j (fun i hi => by
        have := hj (i + 1) (Nat.succ_lt_succ hi)
        rwa [step_offset] at this)]
      have := hj 0 (Nat.succ_pos k)
      simp only [Nat.cast_zero, zero_mul, add_zero] at this
      rw [List.getElem?_set_ne (Ne.symm this)]

end Blas

namespace Blas
variable {α : Type}

theorem Dswap_loop_twice (incX incY : Int) (hX : incX ≠ 0) (hY : incY ≠ 0)
    (k : Nat) (ix iy : Int) (x y : List α)
    (hx : ∀ i : Nat, i < k → 0 ≤ ix + i * incX ∧ ix + i * incX < x.length)
    (hy : ∀ i : Nat, i < k → 0 ≤ iy + i * incY ∧ iy + i * incY < y.length) :
    ∃ x1 y1, Dswap.loop incX incY k ix iy x y = .ok (x1, y1) ∧
      Dswap.loop incX incY k ix iy x1 y1 = .ok (x, y) := by
  obtain ⟨x1, y1, h1, hlx, hly, hsw, hfx, hfy⟩ :=
    Dswap_loop_spec incX incY hX hY k ix iy x y hx hy
  obtain ⟨x2, y2, h2, _, _, hsw2, hfx2, hfy2⟩ :=
    Dswap_loop_spec incX incY hX hY k ix iy x1 y1 (by rw [hlx]; exact hx) (by rw [hly]; exact hy)
  refine ⟨x1, y1, h1, ?_⟩
  rw [h2]
  have ex : x2 = x := by
    apply List.ext_getElem?
    intro j
    by_cases h : ∃ i : Nat, i < k ∧ j = (ix + i * incX).toNat
    · obtain ⟨i, hi, rfl⟩ := h
      rw [(hsw2 i hi).1, (hsw i hi).2]
    · have h3 : ∀ i : Nat, i < k → j ≠ (ix + i * incX).toNat :=
        fun i hi hj => h ⟨i, hi, hj⟩
      rw [hfx2 j h3, hfx j h3]
  have ey : y2 = y := by
    apply List.ext_getElem?
    intro j
    by_cases h : ∃ i : Nat, i < k ∧ j = (iy + i * incY).toNat
    · obtain ⟨i, hi, rfl⟩ := h
      rw [(hsw2 i hi).2, (hsw i hi).1]
    · have h3 : ∀ i : Nat, i < k → j ≠ (iy + i * incY).toNat :=
        fun i hi hj => h ⟨i, hi, hj⟩
      rw [hfy2 j h3, hfy j h3]
  rw [ex, ey]

theorem startOffset_in_bounds (n inc : Int) (len : Nat) (hinc : inc ≠ 0)
    (hlen : (n - 1) * |inc| < len) (i : Nat) (hi : i < n.toNat) :
    0 ≤ startOffset n inc + i * inc ∧ startOffset n inc + i * inc < len := by
  rw [startOffset_add n inc i hinc]
  have := logicalOffset_bounds n inc i hinc (by omega)
  omega

/-- C4: `Dswap` is an involution on distinct buffers: the second call succeeds and
restores both buffers exactly. -/
theorem Dswap_involution (n : Int) (x : List α) (incX : Int) (y : List α) (incY : Int)
    (hn : 0 ≤ n) (hX : incX ≠ 0) (hY : incY ≠ 0)
    (hx : (n - 1) * |incX| < x.length) (hy : (n - 1) * |incY| < y.length) :
    ∃ x1 y1, Dswap n x incX y incY = .ok (x1, y1) ∧ Dswap n x1 incX y1 incY = .ok (x, y) := by
  unfold Dswap
  by_cases h0 : n = 0
  · subst h0
    exact ⟨x, y, by simp, by simp⟩
  · have h1 : ¬ n < 1 := by omega
    have h2 : ¬ (incX = 0 ∨ incY = 0) := by simp [hX, hY]
    simp only [if_neg h1, if_neg h2]
    exact Dswap_loop_twice incX incY hX hY n.toNat _ _ x y
      (startOffset_in_bounds n incX x.length hX hx)
      (startOffset_in_bounds n incY y.length hY hy)

theorem Dswap_involution_witness :
    ∃ x1 y1, Dswap 2 [1, 2, (3 : Int)] (-2) [7, 8] 1 = .ok (x1, y1) ∧
      Dswap 2 x1 (-2) y1 1 = .ok ([1, 2, 3], [7, 8]) :=
  Dswap_involution 2 [1, 2, (3 : Int)] (-2) [7, 8] 1 (by decide) (by decide) (by decide)
    (by decide) (by decide)

end Blas

namespace Blas

theorem copysign_hypot (a b t : ℝ) :
    copysign (hypot Real.sqrt a b) t =
      if t < 0 then -Real.sqrt (a * a + b * b) else Real.sqrt (a * a + b * b) := by
  unfold copysign hypot
  rw [abs_of_nonneg (Real.sqrt_nonneg _)]

theorem hypot_pos (a b : ℝ) (h : ¬ (b = 0 ∧ a = 0)) : 0 < Real.sqrt (a * a + b * b) := by
  apply Real.sqrt_pos.mpr
  by_cases ha : a = 0
  · have hb : b ≠ 0 := fun hb => h ⟨hb, ha⟩
    have := mul_self_pos.mpr hb
    nlinarith [mul_self_nonneg a]
  · have := mul_self_pos.mpr ha
    nlinarith [mul_self_nonneg b]

theorem Drotg_eq (a b : ℝ) (h : ¬ (b = 0 ∧ a = 0)) :
    Drotg Real.sqrt a b =
      (a / (if (if |a| > |b| then a else b) < 0 then -Real.sqrt (a * a + b * b)
            else Real.sqrt (a * a + b * b)),
       b / (if (if |a| > |b| then a else b) < 0 then -Real.sqrt (a * a + b * b)
            else Real.sqrt (a * a + b * b)),
       (if (if |a| > |b| then a else b) < 0 then -Real.sqrt (a * a + b * b)
            else Real.sqrt (a * a + b * b)),
       (Drotg Real.sqrt a b).2.2.2) := by
  unfold Drotg
  rw [if_neg h]
  simp only [copysign_hypot a b _]
  by_cases hab : |a| > |b|
  · simp [hab]
  · simp [hab]

theorem Drotg_r_sq (a b : ℝ) (h : ¬ (b = 0 ∧ a = 0)) :
    (Drotg Real.sqrt a b).2.2.1 * (Drotg Real.sqrt a b).2.2.1 = a * a + b * b
      ∧ (Drotg Real.sqrt a b).2.2.1 ≠ 0
      ∧ (Drotg Real.sqrt a b).1 = a / (Drotg Real.sqrt a b).2.2.1
      ∧ (Drotg Real.sqrt a b).2.1 = b / (Drotg Real.sqrt a b).2.2.1 := by
  have hp := hypot_pos a b h
  have hnn : 0 ≤ a * a + b * b := by nlinarith [mul_self_nonneg a, mul_self_nonneg b]
  have hs := Real.mul_self_sqrt hnn
  rw [Drotg_eq a b h]
  simp only []
  generalize (if |a| > |b| then a else b) = t
  refine ⟨?_, ?_, trivial, trivial⟩
  · split
    · rw [neg_mul_neg, hs]
    · exact hs
  · split
    · exact neg_ne_zero.mpr hp.ne.symm
    · exact hp.ne.symm

end Blas

namespace Blas

/-- C5: for `(a, b)` not both zero and `(c, s, r, z) = Drotg(a, b)` in exact real
arithmetic, `Drot(1, [a], 1, [b], 1, c, s)` leaves `x = [r]`, `y = [0]`, and
`c*c + s*s = 1`. -/
theorem Drotg_Drot_round_trip (a b : ℝ) (h : ¬ (a = 0 ∧ b = 0)) :
    Drot 1 [a] 1 [b] 1 (Drotg Real.sqrt a b).1 (Drotg Real.sqrt a b).2.1 =
        .ok ([(Drotg Real.sqrt a b).2.2.1], [0])
      ∧ (Drotg Real.sqrt a b).1 * (Drotg Real.sqrt a b).1 +
          (Drotg Real.sqrt a b).2.1 * (Drotg Real.sqrt a b).2.1 = 1 := by
  have h2 : ¬ (b = 0 ∧ a = 0) := fun hh => h ⟨hh.2, hh.1⟩
  obtain ⟨hsq, hne, hc, hs⟩ := Drotg_r_sq a b h2
  rw [hc, hs]
  generalize (Drotg Real.sqrt a b).2.2.1 = r at hsq hne
  have e1 : a / r * a + b / r * b = r := by
    field_simp
    linarith
  have e2 : a / r * b - b / r * a = 0 := by
    field_simp
    ring
  constructor
  · simp [Drot, Drot.loop, rd, wr, startOffset, e1, e2]
  · field_simp
    linarith

theorem Drotg_Drot_round_trip_witness :
    Drot 1 [(3 : ℝ)] 1 [4] 1 (Drotg Real.sqrt 3 4).1 (Drotg Real.sqrt 3 4).2.1 =
        .ok ([(Drotg Real.sqrt 3 4).2.2.1], [0])
      ∧ (Drotg Real.sqrt 3 4).1 * (Drotg Real.sqrt 3 4).1 +
          (Drotg Real.sqrt 3 4).2.1 * (Drotg Real.sqrt 3 4).2.1 = 1 :=
  Drotg_Drot_round_trip 3 4 (by norm_num)

/-- C6 (as stated) fails: at the tie `|a| = |b|` with `a = 1`, `b = -1` the returned
`r` is negative, i.e. it carries the sign of `b`, not of `a`. -/
theorem Drotg_tie_takes_sign_of_b :
    |(1 : ℝ)| ≥ |(-1 : ℝ)| ∧ (Drotg Real.sqrt 1 (-1)).2.2.1 < 0 := by
  constructor
  · simp
  · rw [Drotg_eq 1 (-1) (by norm_num)]
    have hp := hypot_pos 1 (-1) (by norm_num)
    simp only [abs_neg, abs_one, gt_iff_lt, lt_irrefl, if_false]
    rw [if_pos (by norm_num)]
    linarith

/-- C6 (amended): for `(a, b)` not both zero, `r` has magnitude `hypot(a, b)` and the
sign of `a` when `|a| > |b|`, the sign of `b` when `|a| ≤ |b|` (ties favour `b`). -/
theorem Drotg_r_sign (a b : ℝ) (h : ¬ (a = 0 ∧ b = 0)) :
    |(Drotg Real.sqrt a b).2.2.1| = hypot Real.sqrt a b
      ∧ (|a| > |b| → SignType.sign (Drotg Real.sqrt a b).2.2.1 = SignType.sign a)
      ∧ (|a| ≤ |b| → SignType.sign (Drotg Real.sqrt a b).2.2.1 = SignType.sign b) := by
  have h2 : ¬ (b = 0 ∧ a = 0) := fun hh => h ⟨hh.2, hh.1⟩
  have hp := hypot_pos a b h2
  have key : ∀ t : ℝ, t ≠ 0 →
      SignType.sign (if t < 0 then -Real.sqrt (a * a + b * b)
        else Real.sqrt (a * a + b * b)) = SignType.sign t := by
    intro t ht
    rcases lt_or_gt_of_ne ht with hneg | hpos
    · rw [if_pos hneg, sign_neg hneg, sign_neg (by linarith)]
    · rw [if_neg (not_lt.mpr hpos.le), sign_pos hpos, sign_pos hp]
  rw [Drotg_eq a b h2]
  simp only [hypot]
  refine ⟨?_, ?_, ?_⟩
  · generalize (if |a| > |b| then a else b) = t
    split
    · rw [abs_neg, abs_of_pos hp]
    · rw [abs_of_pos hp]
  · intro hab
    rw [if_pos hab]
    apply key
    intro ha
    rw [ha, abs_zero] at hab
    exact absurd hab (not_lt.mpr (abs_nonneg b))
  · intro hab
    rw [if_neg (not_lt.mpr hab)]
    apply key
    intro hb
    rw [hb, abs_zero] at hab
    exact h ⟨abs_eq_zero.mp (le_antisymm hab (abs_nonneg a)), hb⟩

theorem Drotg_r_sign_witness :
    |(Drotg Real.sqrt 1 (-1)).2.2.1| = hypot Real.sqrt 1 (-1)
      ∧ (|(1 : ℝ)| > |(-1 : ℝ)| →
          SignType.sign (Drotg Real.sqrt 1 (-1)).2.2.1 = SignType.sign (1 : ℝ))
      ∧ (|(1 : ℝ)| ≤ |(-1 : ℝ)| →
          SignType.sign (Drotg Real.sqrt 1 (-1)).2.2.1 = SignType.sign (-1 : ℝ)) :=
  Drotg_r_sign 1 (-1) (by norm_num)

end Blas

namespace Blas
variable {α : Type}

theorem Dscal_loop_spec [Mul α] (n : Int) (alpha : α) (incX : Int) (hinc : 1 ≤ incX) :
    ∀ (k fuel : Nat) (ix : Int) (x : List α),
      k < fuel → ix + k * incX = n * incX →
      (∀ i : Nat, i < k → 0 ≤ ix + i * incX ∧ ix + i * incX < x.length) →
      ∃ x1, Dscal.loop n alpha incX fuel ix x = some (.ok x1) ∧
        x1.length = x.length ∧
        (∀ i : Nat, i < k →
          x1[(ix + i * incX).toNat]? = (x[(ix + i * incX).toNat]?).map (fun v => v * alpha)) ∧
        (∀ j : Nat, (∀ i : Nat, i < k → j ≠ (ix + i * incX).toNat) → x1[j]? = x[j]?) := by
  intro k
  induction k with
  | zero =>
    intro fuel ix x hf hix _
    obtain ⟨f, rfl⟩ : ∃ f, fuel = f + 1 := ⟨fuel - 1, by omega⟩
    simp only [Nat.cast_zero, zero_mul, add_zero] at hix
    refine ⟨x, ?_, rfl, fun i hi => absurd hi (Nat.not_lt_zero i), fun _ _ => rfl⟩
    rw [Dscal.loop, if_neg (by omega)]
  | succ k ih =>
    intro fuel ix x hf hix hb
    obtain ⟨f, rfl⟩ : ∃ f, fuel = f + 1 := ⟨fuel - 1, by omega⟩
    have hb0 := hb 0 (Nat.succ_pos k)
    simp only [Nat.cast_zero, zero_mul, add_zero] at hb0
    have hxn : ix.toNat < x.length := by omega
    have hlt : ix < n * incX := by
      rw [← hix]; push_cast; nlinarith
    have hix1 : ix + incX + k * incX = n * incX := by
      rw [← hix]; push_cast; ring
    have hb1 : ∀ i : Nat, i < k → 0 ≤ ix + incX + i * incX ∧
        ix + incX + i * incX < (x.set ix.toNat (x.get ⟨ix.toNat, hxn⟩ * alpha)).length := by
      intro i hi
      have := hb (i + 1) (Nat.succ_lt_succ hi)
      rw [step_offset] at this
      simpa using this
    have hne : incX ≠ 0 := by omega
    obtain ⟨x2, hloop, hlen, hsc, hfr⟩ := ih f (ix + incX) _ (by omega) hix1 hb1
    refine ⟨x2, ?_, ?_, ?_, ?_⟩
    · rw [Dscal.loop, if_pos hlt, rd_eq_getElem x ix hb0.1 hxn]
      simp only []
      rw [wr_eq_set x ix _ hb0.1 hxn]
      exact hloop
    · simpa using hlen
    · intro i hi
      cases i with
      | zero =>
        simp only [Nat.cast_zero, zero_mul, add_zero]
        rw [hfr ix.toNat (fun i hi => offset_toNat_ne ix incX hne i hb0.1 (hb1 i hi).1)]
        rw [List.getElem?_set_self hxn, List.getElem?_eq_getElem hxn]
        rfl
      | succ i =>
        have hi2 : i < k := Nat.lt_of_succ_lt_succ hi
        rw [step_offset, hsc i hi2,
          List.getElem?_set_ne (offset_toNat_ne ix incX hne i hb0.1 (hb1 i hi2).1)]
    · intro j hj
      rw [hfr j (fun i hi => by
        have := hj (i + 1) (Nat.succ_lt_succ hi)
        rwa [step_offset] at this)]
      have := hj 0 (Nat.succ_pos k)
      simp only [Nat.cast_zero, zero_mul, add_zero] at this
      rw [List.getElem?_set_ne (Ne.symm this)]

/-- C7 (as stated) fails: scaling `[1, 2, 3]` by `alpha = 0` does not leave it
unchanged, it yields `[0, 0, 0]`. -/
theorem Dscal_zero_alpha_overwrites :
    Dscal 4 3 (0 : ℝ) [1, 2, 3] 1 = some (.ok [0, 0, 0])
      ∧ Dscal 4 3 (0 : ℝ) [1, 2, 3] 1 ≠ some (.ok [1, 2, 3]) := by
  have h : Dscal 4 3 (0 : ℝ) [1, 2, 3] 1 = some (.ok [0, 0, 0]) := by
    simp [Dscal, Dscal.loop, rd, wr]
  refine ⟨h, ?_⟩
  rw [h]
  simp

/-- C7 (amended): `Dscal(n, 0, x, incX)` has no special case for `alpha = 0`: with
enough fuel for its loop it returns, every touched element `x[k*incX]`, `k < n`, becomes
`0`, and every other element of `x` is unchanged. -/
theorem Dscal_zero_alpha_zeroes (fuel : Nat) [MulZeroClass α] (n : Int) (x : List α)
    (incX : Int) (hn : 0 ≤ n) (hinc : 1 ≤ incX) (hx : (n - 1) * incX < x.length)
    (hfuel : n < fuel) :
    ∃ x1, Dscal fuel n 0 x incX = some (.ok x1) ∧ x1.length = x.length ∧
      (∀ k : Nat, (k : Int) < n → x1[((k : Int) * incX).toNat]? = some 0) ∧
      (∀ j : Nat, (∀ k : Nat, (k : Int) < n → j ≠ ((k : Int) * incX).toNat) → x1[j]? = x[j]?) := by
  unfold Dscal
  rw [if_neg (by omega)]
  simp only []
  by_cases h0 : n = 0
  · subst h0
    refine ⟨x, by simp, rfl, ?_, fun _ _ => rfl⟩
    intro k hk
    exact absurd hk (by omega)
  · have hb : ∀ i : Nat, i < n.toNat → 0 ≤ 0 + i * incX ∧ 0 + i * incX < x.length := by
      intro i hi
      have hi2 : (i : Int) ≤ n - 1 := by omega
      rw [zero_add]
      constructor
      · positivity
      · nlinarith
    obtain ⟨x1, hloop, hlen, hsc, hfr⟩ :=
      Dscal_loop_spec n (0 : α) incX hinc n.toNat fuel 0 x (by omega)
        (by rw [Int.toNat_of_nonneg hn]; ring) hb
    rw [if_neg (by omega)]
    refine ⟨x1, hloop, hlen, ?_, ?_⟩
    · intro k hk
      have hk2 : k < n.toNat := by omega
      have := hsc k hk2
      rw [zero_add] at this
      have hlt : ((k : Int) * incX).toNat < x.length := by
        have := (hb k hk2)
        rw [zero_add] at this
        omega
      rw [this, List.getElem?_eq_getElem hlt]
      simp
    · intro j hj
      apply hfr
      intro i hi
      rw [zero_add]
      exact hj i (by omega)

theorem Dscal_zero_alpha_zeroes_witness :
    ∃ x1, Dscal 4 3 0 [1, 2, (3 : Int)] 1 = some (.ok x1) ∧ x1.length = [1, 2, (3 : Int)].length ∧
      (∀ k : Nat, (k : Int) < 3 → x1[((k : Int) * 1).toNat]? = some 0) ∧
      (∀ j : Nat, (∀ k : Nat, (k : Int) < 3 → j ≠ ((k : Int) * 1).toNat) →
        x1[j]? = [1, 2, (3 : Int)][j]?) :=
  Dscal_zero_alpha_zeroes 4 3 [1, 2, (3 : Int)] 1 (by decide) (by decide) (by decide) (by decide)

end Blas

namespace Blas
variable {α : Type}

theorem rd_error (x : List α) (i : Int) (e : Panic) (h : rd x i = .error e) :
    e = .indexOutOfRange := by
  unfold rd at h
  split at h
  · injection h with h; exact h.symm
  · split at h
    · cases h
    · injection h with h; exact h.symm

theorem Dasum_loop_error [LinearOrderedRing α] (x : List α) (incX : Int) :
    ∀ (k : Nat) (i : Int) (sum : α) (e : Panic),
      Dasum.loop x incX k i sum = .error e → e = .indexOutOfRange := by
  intro k
  induction k with
  | zero => intro i sum e h; cases h
  | succ k ih =>
    intro i sum e h
    rw [Dasum.loop] at h
    split at h
    · rename_i e1 hrd
      injection h with h
      subst h
      exact rd_error x _ _ hrd
    · exact ih _ _ _ h

/-- C8 (as stated) fails: a negative increment makes `Dasum` panic with `negInc`, the
error of the negative-increment kind, not with `zeroInc`, the error it raises for a
zero increment. -/
theorem Dasum_negative_increment_is_negInc :
    Dasum 1 [(1 : ℝ)] (-1) = .error .negInc
      ∧ Dasum 1 [(1 : ℝ)] 0 = .error .zeroInc
      ∧ Dasum 1 [(1 : ℝ)] (-1) ≠ .error .zeroInc := by
  have h : Dasum 1 [(1 : ℝ)] (-1) = .error .negInc := by simp [Dasum]
  refine ⟨h, by simp [Dasum], ?_⟩
  rw [h]
  intro hh
  injection hh with hh
  cases hh

/-- C8 (amended): `Dasum` fails with `negativeN` exactly when `n < 0`; for `n ≥ 0` it
fails with `zeroInc` exactly when `incX = 0` and with `negInc` exactly when `incX < 0`;
for `n ≥ 0`, `incX ≥ 1` it fails with none of the three validation errors. -/
theorem Dasum_error_policy [LinearOrderedRing α] (n : Int) (x : List α) (incX : Int) :
    (Dasum n x incX = .error .negativeN ↔ n < 0)
      ∧ (0 ≤ n → ((Dasum n x incX = .error .zeroInc ↔ incX = 0)
          ∧ (Dasum n x incX = .error .negInc ↔ incX < 0)))
      ∧ (0 ≤ n → 1 ≤ incX →
          Dasum n x incX ≠ .error .negativeN ∧ Dasum n x incX ≠ .error .zeroInc
            ∧ Dasum n x incX ≠ .error .negInc) := by
  have hloop : ∀ e : Panic, e ≠ .indexOutOfRange →
      Dasum.loop x incX n.toNat 0 0 ≠ .error e := by
    intro e he h
    exact he (Dasum_loop_error x incX _ _ _ e h)
  unfold Dasum
  by_cases hn : n < 0
  · simp [hn, not_le.mpr hn]
  · rw [if_neg hn]
    have hn2 : 0 ≤ n := not_lt.mp hn
    by_cases h0 : incX = 0
    · subst h0
      simp [hn]
    · rw [if_neg h0]
      by_cases hneg : incX < 0
      · simp [hn, hneg, h0, not_le.mpr (show incX < 1 by omega)]
      · rw [if_neg hneg]
        have h1 : 1 ≤ incX := by omega
        simp only [hn, h0, hneg, iff_false, hn2, h1, true_implies]
        exact ⟨hloop _ (by decide), ⟨hloop _ (by decide), hloop _ (by decide)⟩,
          hloop _ (by decide), hloop _ (by decide), hloop _ (by decide)⟩

end Blas

namespace Blas
variable {α : Type}

theorem Idamax_loop_spec [LinearOrder α] (d : α) (x : List α) (incX : Int) :
    ∀ (k i j : Nat), j < i →
      (∀ m : Nat, m < i + k → 0 ≤ (m : Int) * incX ∧ (m : Int) * incX < x.length) →
      (∀ m : Nat, m < i → x.getD ((m : Int) * incX).toNat d ≤ x.getD ((j : Int) * incX).toNat d) →
      (∀ m : Nat, m < j → x.getD ((m : Int) * incX).toNat d < x.getD ((j : Int) * incX).toNat d) →
      ∃ r : Nat, r < i + k ∧
        Idamax.loop x incX k i (x.getD ((j : Int) * incX).toNat d) ((j : Int) * incX)
          = .ok ((r : Int) * incX) ∧
        (∀ m : Nat, m < i + k →
          x.getD ((m : Int) * incX).toNat d ≤ x.getD ((r : Int) * incX).toNat d) ∧
        (∀ m : Nat, m < r →
          x.getD ((m : Int) * incX).toNat d < x.getD ((r : Int) * incX).toNat d) := by
  intro k
  induction k with
  | zero =>
    intro i j hji _ hmax hfirst
    exact ⟨j, by omega, rfl, hmax, hfirst⟩
  | succ k ih =>
    intro i j hji hb hmax hfirst
    have hbi := hb i (by omega)
    rw [Idamax.loop, rd_eq_ok d x _ hbi.1 hbi.2]
    simp only []
    by_cases hgt : x.getD ((i : Int) * incX).toNat d > x.getD ((j : Int) * incX).toNat d
    · rw [if_pos hgt]
      obtain ⟨r, hr, hloop, h1, h2⟩ := ih (i + 1) i (by omega)
        (fun m hm => hb m (by omega))
        (fun m hm => by
          rcases Nat.lt_succ_iff_lt_or_eq.mp hm with h | h
          · exact le_trans (hmax m h) hgt.le
          · rw [h])
        (fun m hm => lt_of_le_of_lt (hmax m hm) hgt)
      refine ⟨r, by omega, ?_, fun m hm => h1 m (by omega), h2⟩
      rw [← hloop]
      push_cast
      rfl
    · rw [if_neg hgt]
      obtain ⟨r, hr, hloop, h1, h2⟩ := ih (i + 1) j (by omega)
        (fun m hm => hb m (by omega))
        (fun m hm => by
          rcases Nat.lt_succ_iff_lt_or_eq.mp hm with h | h
          · exact hmax m h
          · rw [h]; exact not_lt.mp hgt)
        hfirst
      refine ⟨r, by omega, ?_, fun m hm => h1 m (by omega), h2⟩
      rw [← hloop]
      push_cast
      rfl

/-- What `Idamax` computes: for `n ≥ 1` it returns the buffer offset `r * incX` of the
earliest logical index `r < n` whose element is maximal. -/
theorem Idamax_returns_offset [LinearOrder α] (d : α) (n : Int) (x : List α) (incX : Int)
    (hn : 1 ≤ n) (hinc : 1 ≤ incX) (hx : (n - 1) * incX < x.length) :
    ∃ r : Nat, (r : Int) < n ∧ Idamax n x incX = .ok ((r : Int) * incX) ∧
      (∀ m : Nat, (m : Int) < n →
        x.getD ((m : Int) * incX).toNat d ≤ x.getD ((r : Int) * incX).toNat d) ∧
      (∀ m : Nat, m < r →
        x.getD ((m : Int) * incX).toNat d < x.getD ((r : Int) * incX).toNat d) := by
  have hb : ∀ m : Nat, m < 1 + (n - 1).toNat →
      0 ≤ (m : Int) * incX ∧ (m : Int) * incX < x.length := by
    intro m hm
    have hm2 : (m : Int) ≤ n - 1 := by omega
    constructor
    · positivity
    · nlinarith
  obtain ⟨r, hr, hloop, h1, h2⟩ := Idamax_loop_spec d x incX (n - 1).toNat 1 0 (by omega) hb
    (fun m hm => by
      have : m = 0 := by omega
      rw [this])
    (fun m hm => absurd hm (Nat.not_lt_zero m))
  simp only [Nat.cast_zero, zero_mul, Int.toNat_zero, Nat.cast_one] at hloop
  have h0 : rd x 0 = .ok (x.getD 0 d) := by
    have := rd_eq_ok d x 0 le_rfl (by nlinarith)
    simpa using this
  unfold Idamax
  rw [if_neg (by omega)]
  simp only [h0]
  by_cases h2n : n < 2
  · have hn1 : n = 1 := by omega
    subst hn1
    refine ⟨0, by decide, by simp, ?_, fun m hm => absurd hm (Nat.not_lt_zero m)⟩
    intro m hm
    have : m = 0 := by omega
    rw [this]
  · rw [if_neg h2n]
    exact ⟨r, by omega, hloop, fun m hm => h1 m (by omega), h2⟩

/-- C3, the code at the failing input: on `x = [1, 0, 5]`, `n = 2`, `incX = 2` the maximum
is the logical element `1`, and `Idamax` returns `2`, the buffer offset `1 * incX`, which
is not a logical index below `n`; on `[1, 5, 5, 2]` with `incX = 1` it returns `1`. -/
theorem Idamax_returns_offset_not_index :
    Idamax 2 [1, 0, (5 : Int)] 2 = .ok 2
      ∧ Idamax 4 [1, 5, 5, (2 : Int)] 1 = .ok 1 :=
  ⟨rfl, rfl⟩

end Blas

namespace Zbw
variable {β : Type}

theorem sliceFrom_ok (s : List β) (low : Int) (h0 : 0 ≤ low) (h1 : low ≤ s.length) :
    sliceFrom s low = .ok (s.drop low.toNat) := by
  unfold sliceFrom
  rw [if_neg (by omega)]

theorem getElem?_drop_offset (s : List β) (off : Nat) (t p : Int) (ht : 0 ≤ t)
    (hp : (off : Int) + t = p) :
    (s.drop off)[t.toNat]? = s[p.toNat]? := by
  rw [List.getElem?_drop]
  congr 1
  omega

end Zbw


namespace Zbw
variable {β : Type}

/-- C11, the code at the failing inputs: a column-major view with `Rows = 2`, `Cols = 0`,
`Stride = 2` over an empty buffer passes `Check`, and `Row(1)`, with `1` inside
`[0, Rows)`, does not return a vector: the slice expression `A.Data[1:]` panics.  The same
holds for `Col(1)` of the row-major view with `Rows = 0`, `Cols = 2`. -/
theorem General_Row_Col_empty_extent_panics :
    (General.mk Order.ColMajor 2 0 2 ([] : List ℂ)).Check = none
      ∧ (General.mk Order.ColMajor 2 0 2 ([] : List ℂ)).Row 1 = .error .sliceBounds
      ∧ (General.mk Order.RowMajor 0 2 2 ([] : List ℂ)).Check = none
      ∧ (General.mk Order.RowMajor 0 2 2 ([] : List ℂ)).Col 1 = .error .sliceBounds :=
  ⟨rfl, rfl, rfl, rfl⟩

end Zbw

namespace Zbw
variable {β : Type}

theorem General_Sub_shape (A B : General β) (i j r c : Int) (h : A.Sub i j r c = .ok B) :
    A.Check = none ∧ B.Order = A.Order ∧ B.Stride = A.Stride ∧ B.Rows = r ∧ B.Cols = c
      ∧ B.Data = A.Data.drop (A.Index i j).toNat := by
  unfold General.Sub at h
  cases hA : A.Check with
  | some e => rw [hA] at h; simp [must] at h
  | none =>
    rw [hA] at h
    simp only [must] at h
    unfold sliceFrom at h
    split_ifs at h
    injection h with h
    subst h
    exact ⟨rfl, rfl, rfl, rfl, rfl, rfl⟩

theorem General_Sub_rejects (A : General β) (hA : A.Check = none) (i j r c : Int) :
    ((i < 0 ∨ A.Rows ≤ i ∨ A.Cols ≤ j) → A.Sub i j r c = .error .indexOutOfRange)
      ∧ ((r < 0 ∨ c < 0) → ∃ e, A.Sub i j r c = .error e) := by
  unfold General.Sub
  rw [hA]
  simp only [must]
  constructor
  · intro h
    by_cases h1 : i ≥ A.Rows ∨ i < 0
    · rw [if_pos h1]
    · rw [if_neg h1, if_pos (by omega)]
  · intro h
    split_ifs
    · exact ⟨_, rfl⟩
    · exact ⟨_, rfl⟩
    · exact ⟨_, rfl⟩

/-- C12, the code at the failing input: on the valid row-major 2×2 view over
`[1, 2, 3, 4]`, `Sub(1, 1, 2, 2)` returns a 2×2 view over the one-element buffer `[4]`,
and `Check` of that result is the "insufficient amount of data" error. -/
theorem General_Sub_result_not_validated :
    (General.mk Order.RowMajor 2 2 2 ([1, 2, 3, 4] : List ℂ)).Check = none
      ∧ (General.mk Order.RowMajor 2 2 2 ([1, 2, 3, 4] : List ℂ)).Sub 1 1 2 2
          = .ok (General.mk Order.RowMajor 2 2 2 [4])
      ∧ (General.mk Order.RowMajor 2 2 2 ([4] : List ℂ)).Check = some .insufficientData :=
  ⟨rfl, rfl, rfl⟩

/-- C13, the code at the failing input: on the valid row-major 2×2 view over
`[1, 2, 3, 4]`, `Sub(1, -1, 1, 1)` with the negative column anchor `j = -1` does not
fail: it returns the view over the buffer advanced by `Index(1, -1) = 1`. -/
theorem General_Sub_accepts_negative_j :
    (General.mk Order.RowMajor 2 2 2 ([1, 2, 3, 4] : List ℂ)).Check = none
      ∧ (General.mk Order.RowMajor 2 2 2 ([1, 2, 3, 4] : List ℂ)).Sub 1 (-1) 1 1
          = .ok (General.mk Order.RowMajor 1 1 2 [2, 3, 4]) :=
  ⟨rfl, rfl⟩

/-- C14, the code at the failing inputs: on `v = {[1, 2, 3], N = 3, Inc = 1}` the valid
range `Slice(0, 2)` panics with the invalid-slice-index message, and the inverted range
`Slice(2, 0)` returns a vector of length `-2`. -/
theorem Vector_Slice_guard_inverted :
    (Vector.mk ([1, 2, 3] : List ℂ) 3 1).Slice 0 2 = .error .invalidSliceIndex
      ∧ (Vector.mk ([1, 2, 3] : List ℂ) 3 1).Slice 2 0 = .ok (Vector.mk [3] (-2) 1) :=
  ⟨rfl, rfl⟩

/-- C19, the code at the failing inputs: with the negative increment `-1` the vector
`{[], N = 2, Inc = -1}` passes `Check` although `(N-1)*|Inc| = 1` is not below
`len(Data) = 0`, and `{[], N = 0, Inc = -1}` is rejected although it satisfies the
invariant. -/
theorem Vector_Check_negative_inc :
    (Vector.mk ([] : List ℂ) 2 (-1)).Check = none
      ∧ (Vector.mk ([] : List ℂ) 0 (-1)).Check = some .indexOutOfRange :=
  ⟨rfl, rfl⟩

end Zbw

namespace Blas
variable {α : Type}

theorem Dcopy_loop_ok (x : List α) (incX incY : Int) :
    ∀ (k : Nat) (ix iy : Int) (y : List α),
      (∀ i : Nat, i < k → 0 ≤ ix + i * incX ∧ ix + i * incX < x.length) →
      (∀ i : Nat, i < k → 0 ≤ iy + i * incY ∧ iy + i * incY < y.length) →
      ∃ y1, Dcopy.loop x incX incY k ix iy y = .ok y1 ∧ y1.length = y.length := by
  intro k
  induction k with
  | zero => intro ix iy y _ _; exact ⟨y, rfl, rfl⟩
  | succ k ih =>
    intro ix iy y hx hy
    have hx0 := hx 0 (Nat.succ_pos k)
    have hy0 := hy 0 (Nat.succ_pos k)
    simp only [Nat.cast_zero, zero_mul, add_zero] at hx0 hy0
    have hxn : ix.toNat < x.length := by omega
    have hyn : iy.toNat < y.length := by omega
    obtain ⟨y2, hloop, hlen⟩ := ih (ix + incX) (iy + incY)
      (y.set iy.toNat (x.get ⟨ix.toNat, hxn⟩))
      (fun i hi => by
        have := hx (i + 1) (Nat.succ_lt_succ hi)
        rwa [step_offset] at this)
      (fun i hi => by
        have := hy (i + 1) (Nat.succ_lt_succ hi)
        rw [step_offset] at this
        simpa using this)
    refine ⟨y2, ?_, by simpa using hlen⟩
    rw [Dcopy.loop, rd_eq_getElem x ix hx0.1 hxn]
    simp only []
    rw [wr_eq_set y iy _ hy0.1 hyn]
    exact hloop

end Blas

namespace Blas
variable {α : Type}

theorem rd_ok_bounds (x : List α) (i : Int) (v : α) (h : rd x i = .ok v) :
    0 ≤ i ∧ i < x.length := by
  unfold rd at h
  split at h
  · cases h
  · rename_i hneg
    split at h
    · rename_i w hw
      have := (List.getElem?_eq_some_iff.mp hw).1
      omega
    · cases h

theorem wr_ok_bounds (x x1 : List α) (i : Int) (v : α) (h : wr x i v = .ok x1) :
    0 ≤ i ∧ i < x.length ∧ x1.length = x.length := by
  unfold wr at h
  split_ifs at h with h1 h2
  injection h with h
  subst h
  refine ⟨by omega, by omega, by simp⟩

theorem Ddot_loop_accesses [Add α] [Mul α] (x : List α) (incX : Int) (y : List α) (incY : Int) :
    ∀ (k : Nat) (ix iy : Int) (sum v : α),
      Ddot.loop x incX y incY k ix iy sum = .ok v →
      ∀ i : Nat, i < k → (0 ≤ ix + i * incX ∧ ix + i * incX < x.length)
        ∧ (0 ≤ iy + i * incY ∧ iy + i * incY < y.length) := by
  intro k
  induction k with
  | zero => intro _ _ _ _ _ i hi; exact absurd hi (Nat.not_lt_zero i)
  | succ k ih =>
    intro ix iy sum v h i hi
    rw [Ddot.loop] at h
    cases hy : rd y iy with
    | error e => rw [hy] at h; cases h
    | ok yv =>
      cases hx : rd x ix with
      | error e => rw [hy, hx] at h; cases h
      | ok xv =>
        rw [hy, hx] at h
        simp only [bind, Except.bind] at h
        cases i with
        | zero =>
          simp only [Nat.cast_zero, zero_mul, add_zero]
          exact ⟨rd_ok_bounds x ix xv hx, rd_ok_bounds y iy yv hy⟩
        | succ i =>
          rw [step_offset, step_offset]
          exact ih _ _ _ _ h i (Nat.lt_of_succ_lt_succ hi)

theorem Dswap_loop_accesses (incX incY : Int) :
    ∀ (k : Nat) (ix iy : Int) (x y x1 y1 : List α),
      Dswap.loop incX incY k ix iy x y = .ok (x1, y1) →
      ∀ i : Nat, i < k → (0 ≤ ix + i * incX ∧ ix + i * incX < x.length)
        ∧ (0 ≤ iy + i * incY ∧ iy + i * incY < y.length) := by
  intro k
  induction k with
  | zero => intro _ _ _ _ _ _ _ i hi; exact absurd hi (Nat.not_lt_zero i)
  | succ k ih =>
    intro ix iy x y x1 y1 h i hi
    rw [Dswap.loop] at h
    cases hy : rd y iy with
    | error e => rw [hy] at h; cases h
    | ok yv =>
      cases hx : rd x ix with
      | error e => rw [hy, hx] at h; cases h
      | ok xv =>
        rw [hy, hx] at h
        simp only [] at h
        cases hwx : wr x ix yv with
        | error e => rw [hwx] at h; cases h
        | ok x2 =>
          rw [hwx] at h
          simp only [] at h
          cases hwy : wr y iy xv with
          | error e => rw [hwy] at h; cases h
          | ok y2 =>
            rw [hwy] at h
            simp only [] at h
            have hbx := wr_ok_bounds x x2 ix yv hwx
            have hby := wr_ok_bounds y y2 iy xv hwy
            cases i with
            | zero =>
              simp only [Nat.cast_zero, zero_mul, add_zero]
              exact ⟨⟨hbx.1, hbx.2.1⟩, ⟨hby.1, hby.2.1⟩⟩
            | succ i =>
              rw [step_offset, step_offset]
              have := ih _ _ _ _ _ _ h i (Nat.lt_of_succ_lt_succ hi)
              rw [hbx.2.2, hby.2.2] at this
              exact this

theorem Dcopy_loop_accesses (x : List α) (incX incY : Int) :
    ∀ (k : Nat) (ix iy : Int) (y y1 : List α),
      Dcopy.loop x incX incY k ix iy y = .ok y1 →
      ∀ i : Nat, i < k → (0 ≤ ix + i * incX ∧ ix + i * incX < x.length)
        ∧ (0 ≤ iy + i * incY ∧ iy + i * incY < y.length) := by
  intro k
  induction k with
  | zero => intro _ _ _ _ _ i hi; exact absurd hi (Nat.not_lt_zero i)
  | succ k ih =>
    intro ix iy y y1 h i hi
    rw [Dcopy.loop] at h
    cases hx : rd x ix with
    | error e => rw [hx] at h; cases h
    | ok xv =>
      rw [hx] at h
      simp only [] at h
      cases hwy : wr y iy xv with
      | error e => rw [hwy] at h; cases h
      | ok y2 =>
        rw [hwy] at h
        simp only [] at h
        have hby := wr_ok_bounds y y2 iy xv hwy
        cases i with
        | zero =>
          simp only [Nat.cast_zero, zero_mul, add_zero]
          exact ⟨rd_ok_bounds x ix xv hx, ⟨hby.1, hby.2.1⟩⟩
        | succ i =>
          rw [step_offset, step_offset]
          have := ih _ _ _ _ h i (Nat.lt_of_succ_lt_succ hi)
          rw [hby.2.2] at this
          exact this

theorem extreme_offset_accessed (n inc : Int) (len : Nat) (hn : 1 ≤ n) (hinc : inc ≠ 0)
    (h : ∀ i : Nat, i < n.toNat →
      0 ≤ startOffset n inc + i * inc ∧ startOffset n inc + i * inc < len) :
    (n - 1) * |inc| < len := by
  rcases lt_or_gt_of_ne hinc with hneg | hpos
  · have h0 := (h 0 (by omega)).2
    simp only [Nat.cast_zero, zero_mul, add_zero, startOffset, if_pos hneg] at h0
    rw [abs_of_neg hneg]
    linarith [show (-n + 1) * inc = (n - 1) * -inc by ring]
  · have h1 := (h (n - 1).toNat (by omega)).2
    simp only [startOffset, if_neg (not_lt.mpr hpos.le), zero_add] at h1
    rw [Int.toNat_of_nonneg (by omega)] at h1
    rw [abs_of_pos hpos]
    exact h1

end Blas

namespace Blas
variable {α : Type}

/-- C20: in `Ddot`, `Dswap` and `Dcopy`, for `n ≥ 1` and a non-zero increment, the
offset at loop step `k` is `k*inc` forwards and `(n-1-k)*|inc|` backwards (start offset
`(-n+1)*inc`, last access at offset `0`); it lies in `[0, (n-1)*|inc|]`; and each kernel
returns without an index-out-of-range panic exactly when both buffers are longer than
`(n-1)*|inc|`. -/
theorem strided_traversal_in_bounds [CommSemiring α] (n : Int) (x : List α) (incX : Int)
    (y : List α) (incY : Int) (hn : 1 ≤ n) (hX : incX ≠ 0) (hY : incY ≠ 0) :
    (∀ inc : Int, inc ≠ 0 → ∀ k : Nat, (k : Int) < n →
        startOffset n inc + k * inc = logicalOffset n inc k
          ∧ 0 ≤ startOffset n inc + k * inc
          ∧ startOffset n inc + k * inc ≤ (n - 1) * |inc|)
      ∧ (∀ inc : Int, inc < 0 →
          startOffset n inc = (-n + 1) * inc
            ∧ startOffset n inc + ((n - 1).toNat : Int) * inc = 0)
      ∧ (((n - 1) * |incX| < x.length ∧ (n - 1) * |incY| < y.length)
          ↔ ∃ v, Ddot n x incX y incY = .ok v)
      ∧ (((n - 1) * |incX| < x.length ∧ (n - 1) * |incY| < y.length)
          ↔ ∃ x1 y1, Dswap n x incX y incY = .ok (x1, y1))
      ∧ (((n - 1) * |incX| < x.length ∧ (n - 1) * |incY| < y.length)
          ↔ ∃ y1, Dcopy n x incX y incY = .ok y1) := by
  have h1 : ¬ n < 1 := by omega
  have h2 : ¬ (incX = 0 ∨ incY = 0) := by simp [hX, hY]
  refine ⟨?_, ?_, ?_, ?_, ?_⟩
  · intro inc hinc k hk
    have hb := logicalOffset_bounds n inc k hinc hk
    rw [startOffset_add n inc k hinc]
    exact ⟨rfl, hb.1, hb.2⟩
  · intro inc hinc
    simp only [startOffset, if_pos hinc]
    rw [Int.toNat_of_nonneg (by omega)]
    exact ⟨trivial, by ring⟩
  · constructor
    · rintro ⟨hx, hy⟩
      exact ⟨_, Ddot_eq_logical n x incX y incY (by omega) hX hY hx hy⟩
    · rintro ⟨v, hv⟩
      unfold Ddot at hv
      rw [if_neg (by omega), if_neg h2] at hv
      have hacc := Ddot_loop_accesses x incX y incY _ _ _ _ _ hv
      exact ⟨extreme_offset_accessed n incX x.length hn hX (fun i hi => (hacc i hi).1),
        extreme_offset_accessed n incY y.length hn hY (fun i hi => (hacc i hi).2)⟩
  · constructor
    · rintro ⟨hx, hy⟩
      obtain ⟨x1, y1, h, _⟩ := Dswap_loop_spec incX incY hX hY n.toNat _ _ x y
        (startOffset_in_bounds n incX x.length hX hx)
        (startOffset_in_bounds n incY y.length hY hy)
      refine ⟨x1, y1, ?_⟩
      unfold Dswap
      rw [if_neg h1, if_neg h2]
      exact h
    · rintro ⟨x1, y1, hv⟩
      unfold Dswap at hv
      rw [if_neg h1, if_neg h2] at hv
      have hacc := Dswap_loop_accesses incX incY _ _ _ _ _ _ _ hv
      exact ⟨extreme_offset_accessed n incX x.length hn hX (fun i hi => (hacc i hi).1),
        extreme_offset_accessed n incY y.length hn hY (fun i hi => (hacc i hi).2)⟩
  · constructor
    · rintro ⟨hx, hy⟩
      obtain ⟨y1, h, _⟩ := Dcopy_loop_ok x incX incY n.toNat _ _ y
        (startOffset_in_bounds n incX x.length hX hx)
        (startOffset_in_bounds n incY y.length hY hy)
      refine ⟨y1, ?_⟩
      unfold Dcopy
      rw [if_neg h1, if_neg h2]
      exact h
    · rintro ⟨y1, hv⟩
      unfold Dcopy at hv
      rw [if_neg h1, if_neg h2] at hv
      have hacc := Dcopy_loop_accesses x incX incY _ _ _ _ _ hv
      exact ⟨extreme_offset_accessed n incX x.length hn hX (fun i hi => (hacc i hi).1),
        extreme_offset_accessed n incY y.length hn hY (fun i hi => (hacc i hi).2)⟩

theorem strided_traversal_in_bounds_witness :
    ∃ y1, Dcopy 2 [1, 2, (3 : Int)] (-2) [7, 8] 1 = .ok y1 :=
  (strided_traversal_in_bounds 2 [1, 2, (3 : Int)] (-2) [7, 8] 1 (by decide) (by decide)
    (by decide)).2.2.2.2.1 ⟨by decide, by decide⟩

end Blas

namespace Blas
variable {α : Type}

theorem Drotm_fastLoop_eq_loop (f : α → α → α × α) (nsteps incX : Int) (hinc : 1 ≤ incX) :
    ∀ (k fuel : Nat) (i : Int) (x y : List α),
      k < fuel → i + k * incX = nsteps →
      Drotm.fastLoop f nsteps incX fuel i x y = some (Drotm.loop f incX incX k i i x y) := by
  intro k
  induction k with
  | zero =>
    intro fuel i x y hf hi
    obtain ⟨g, rfl⟩ : ∃ g, fuel = g + 1 := ⟨fuel - 1, by omega⟩
    simp only [Nat.cast_zero, zero_mul, add_zero] at hi
    rw [Drotm.fastLoop, if_neg (by omega), Drotm.loop]
  | succ k ih =>
    intro fuel i x y hf hi
    obtain ⟨g, rfl⟩ : ∃ g, fuel = g + 1 := ⟨fuel - 1, by omega⟩
    have hlt : i < nsteps := by
      rw [← hi]; push_cast; nlinarith
    have hi1 : i + incX + k * incX = nsteps := by
      rw [← hi]; push_cast; ring
    rw [Drotm.fastLoop, if_pos hlt, Drotm.loop]
    cases rd x i with
    | error e => rfl
    | ok w =>
      simp only []
      cases rd y i with
      | error e => rfl
      | ok z =>
        simp only []
        cases wr x i (f w z).1 with
        | error e => rfl
        | ok x1 =>
          simp only []
          cases wr y i (f w z).2 with
          | error e => rfl
          | ok y1 =>
            simp only []
            exact ih g (i + incX) x1 y1 (by omega) hi1

theorem Drotm_loop_ok (f : α → α → α × α) (incX incY : Int) :
    ∀ (k : Nat) (ix iy : Int) (x y : List α),
      (∀ i : Nat, i < k → 0 ≤ ix + i * incX ∧ ix + i * incX < x.length) →
      (∀ i : Nat, i < k → 0 ≤ iy + i * incY ∧ iy + i * incY < y.length) →
      ∃ x1 y1, Drotm.loop f incX incY k ix iy x y = .ok (x1, y1)
        ∧ x1.length = x.length ∧ y1.length = y.length := by
  intro k
  induction k with
  | zero => intro ix iy x y _ _; exact ⟨x, y, rfl, rfl, rfl⟩
  | succ k ih =>
    intro ix iy x y hx hy
    have hx0 := hx 0 (Nat.succ_pos k)
    have hy0 := hy 0 (Nat.succ_pos k)
    simp only [Nat.cast_zero, zero_mul, add_zero] at hx0 hy0
    have hxn : ix.toNat < x.length := by omega
    have hyn : iy.toNat < y.length := by omega
    obtain ⟨x2, y2, hloop, hlx, hly⟩ := ih (ix + incX) (iy + incY)
      (x.set ix.toNat (f (x.get ⟨ix.toNat, hxn⟩) (y.get ⟨iy.toNat, hyn⟩)).1)
      (y.set iy.toNat (f (x.get ⟨ix.toNat, hxn⟩) (y.get ⟨iy.toNat, hyn⟩)).2)
      (fun i hi => by
        have := hx (i + 1) (Nat.succ_lt_succ hi)
        rw [step_offset] at this
        simpa using this)
      (fun i hi => by
        have := hy (i + 1) (Nat.succ_lt_succ hi)
        rw [step_offset] at this
        simpa using this)
    refine ⟨x2, y2, ?_, by simpa using hlx, by simpa using hly⟩
    rw [Drotm.loop, rd_eq_getElem x ix hx0.1 hxn]
    simp only []
    rw [rd_eq_getElem y iy hy0.1 hyn]
    simp only []
    rw [wr_eq_set x ix _ hx0.1 hxn]
    simp only []
    rw [wr_eq_set y iy _ hy0.1 hyn]
    exact hloop

/-- C18: for `n ≥ 1`, `incX = incY > 0`, `p.Flag ≠ -2` and buffers longer than
`(n-1)*incX`, the shared-index branch of `Drotm` returns (given fuel above `n`), and it
leaves `x` and `y` in exactly the state the general two-offset path produces, whatever
the flag. -/
theorem Drotm_fast_path_eq_general [CommRing α] (fuel : Nat) (n : Int) (x : List α)
    (inc : Int) (y : List α) (p : DrotmParams α) (hn : 1 ≤ n) (hinc : 0 < inc)
    (hflag : p.Flag ≠ -2) (hx : (n - 1) * inc < x.length) (hy : (n - 1) * inc < y.length)
    (hfuel : n < fuel) :
    ∃ x1 y1, Drotm fuel n x inc y inc p = some (.ok (x1, y1))
      ∧ Drotm.general n x inc y inc p = .ok (x1, y1) := by
  have hne : inc ≠ 0 := by omega
  have hbx := startOffset_in_bounds n inc x.length hne (by rwa [abs_of_pos hinc])
  have hby := startOffset_in_bounds n inc y.length hne (by rwa [abs_of_pos hinc])
  have hstart : startOffset n inc = 0 := by simp [startOffset, not_lt.mpr hinc.le]
  have hcomm : (fun (w z : α) => (w * p.H0 + z, -w + p.H3 * z))
      = (fun (w z : α) => (w * p.H0 + z, -w + z * p.H3)) := by
    funext w z
    rw [mul_comm p.H3 z]
  have key : ∀ f : α → α → α × α,
      ∃ x1 y1, Drotm.fastLoop f (n * inc) inc fuel 0 x y = some (.ok (x1, y1))
        ∧ Drotm.loop f inc inc n.toNat (startOffset n inc) (startOffset n inc) x y
            = .ok (x1, y1) := by
    intro f
    obtain ⟨x1, y1, hl, _, _⟩ := Drotm_loop_ok f inc inc n.toNat _ _ x y hbx hby
    refine ⟨x1, y1, ?_, hl⟩
    rw [Drotm_fastLoop_eq_loop f (n * inc) inc (by omega) n.toNat fuel 0 x y (by omega)
      (by rw [Int.toNat_of_nonneg (by omega)]; ring)]
    rw [hstart] at hl
    rw [hl]
  unfold Drotm Drotm.general
  rw [if_neg (by omega), if_neg (by simp [hne]), if_neg hflag, if_pos ⟨rfl, hinc⟩]
  simp only []
  by_cases h1 : p.Flag < 0
  · simp only [if_pos h1]
    exact key _
  · simp only [if_neg h1]
    by_cases h2 : p.Flag = 0
    · simp only [if_pos h2]
      exact key _
    · simp only [if_neg h2, hcomm]
      exact key _

theorem Drotm_fast_path_eq_general_witness :
    ∃ x1 y1, Drotm 3 2 [1, 2, (3 : Int)] 2 [4, 5, 6] 2 ⟨1, 2, 0, 0, 3⟩ = some (.ok (x1, y1))
      ∧ Drotm.general 2 [1, 2, (3 : Int)] 2 [4, 5, 6] 2 ⟨1, 2, 0, 0, 3⟩ = .ok (x1, y1) :=
  Drotm_fast_path_eq_general 3 2 [1, 2, (3 : Int)] 2 [4, 5, 6] ⟨1, 2, 0, 0, 3⟩ (by decide)
    (by decide) (by decide) (by decide) (by decide) (by decide)

end Blas

namespace Blas
variable {α : Type}

theorem bind_ok_iff {ε β γ : Type} (x : Except ε β) (f : β → Except ε γ) (c : γ) :
    (x >>= f) = .ok c ↔ ∃ a, x = .ok a ∧ f a = .ok c := by
  cases x <;> simp [bind, Except.bind]

theorem rescale1_flag [LinearOrderedField α] (gam gamsq rgamsq : α) :
    ∀ (fuel : Nat) (p : DrotmParams α) (rd1 rx1 : α) (res : DrotmParams α × α × α),
      Drotmg.rescale1 gam gamsq rgamsq fuel p rd1 rx1 = .ok res →
      p.Flag ≠ -2 → res.1.Flag ≠ -2 := by
  intro fuel
  induction fuel with
  | zero => intro p rd1 rx1 res h; cases h
  | succ fuel ih =>
    intro p rd1 rx1 res h hp
    rw [Drotmg.rescale1] at h
    split_ifs at h with h1 h2 h3 h4
    · exact ih _ _ _ _ h (by simp)
    · exact ih _ _ _ _ h (by simp)
    · exact ih _ _ _ _ h (by simp)
    · exact ih _ _ _ _ h (by simp)
    · injection h with h
      subst h
      exact hp

theorem rescale2_flag [LinearOrderedField α] (gam gamsq rgamsq : α) :
    ∀ (fuel : Nat) (p : DrotmParams α) (rd2 : α) (res : DrotmParams α × α),
      Drotmg.rescale2 gam gamsq rgamsq fuel p rd2 = .ok res →
      p.Flag ≠ -2 → res.1.Flag ≠ -2 := by
  intro fuel
  induction fuel with
  | zero => intro p rd2 res h; cases h
  | succ fuel ih =>
    intro p rd2 res h hp
    rw [Drotmg.rescale2] at h
    split_ifs at h with h1 h2 h3 h4
    · exact ih _ _ _ h (by simp)
    · exact ih _ _ _ h (by simp)
    · exact ih _ _ _ h (by simp)
    · exact ih _ _ _ h (by simp)
    · injection h with h
      subst h
      exact hp

theorem Drotmg_flag [LinearOrderedField α] (fuel : Nat) (d1 d2 x1 y1 : α)
    (res : DrotmParams α × α × α × α) (h : Drotmg fuel d1 d2 x1 y1 = .ok res) :
    res.1.Flag = -2 ↔ (0 ≤ d1 ∧ d2 * y1 = 0) := by
  unfold Drotmg at h
  simp only [] at h
  by_cases hd : d1 < 0
  · rw [if_pos hd] at h
    injection h with h
    subst h
    simp [hd]
  · rw [if_neg hd] at h
    by_cases hp2 : d2 * y1 = 0
    · rw [if_pos hp2] at h
      injection h with h
      subst h
      simp [hp2, not_lt.mp hd]
    · rw [if_neg hp2] at h
      have hgoal : res.1.Flag ≠ -2 → (res.1.Flag = -2 ↔ (0 ≤ d1 ∧ d2 * y1 = 0)) := by
        intro hne
        simp [hne, hp2]
      apply hgoal
      split_ifs at h with h1 h2 h3
      · injection h with h
        subst h
        simp
      · simp only [bind_ok_iff] at h
        obtain ⟨_, _, _, _, _, _, _, _, _, _, h⟩ := h
        injection h with h
        subst h
        simp
      · simp only [bind_ok_iff] at h
        obtain ⟨⟨pa, rd1, rd2, rx1⟩, hsel, ⟨pb, rd1b, rx1b⟩, hr1, ⟨pc, rd2c⟩, hr2, hfin⟩ := h
        injection hfin with hfin
        subst hfin
        have hpa : pa.Flag ≠ -2 := by
          obtain ⟨_, _, _, _, _, _, _, _, hsel⟩ := hsel
          injection hsel with hsel
          injection hsel with hsel
          subst hsel
          simp
        exact rescale2_flag _ _ _ _ _ _ _ hr2 (rescale1_flag _ _ _ _ _ _ _ _ hr1 hpa)
      · simp only [bind_ok_iff] at h
        obtain ⟨⟨pa, rd1, rd2, rx1⟩, hsel, ⟨pb, rd1b, rx1b⟩, hr1, ⟨pc, rd2c⟩, hr2, hfin⟩ := h
        injection hfin with hfin
        subst hfin
        have hpa : pa.Flag ≠ -2 := by
          obtain ⟨_, _, _, _, _, _, _, _, hsel⟩ := hsel
          injection hsel with hsel
          injection hsel with hsel
          subst hsel
          simp
        exact rescale2_flag _ _ _ _ _ _ _ hr2 (rescale1_flag _ _ _ _ _ _ _ _ hr1 hpa)

end Blas

namespace Blas
variable {α : Type}

theorem wr_error (x : List α) (i : Int) (v : α) (e : Panic) (h : wr x i v = .error e) :
    e = .indexOutOfRange := by
  unfold wr at h
  split_ifs at h <;> injection h with h <;> exact h.symm

theorem Drotm_loop_error (f : α → α → α × α) (incX incY : Int) :
    ∀ (k : Nat) (ix iy : Int) (x y : List α) (e : Panic),
      Drotm.loop f incX incY k ix iy x y = .error e → e = .indexOutOfRange := by
  intro k
  induction k with
  | zero => intro ix iy x y e h; cases h
  | succ k ih =>
    intro ix iy x y e h
    rw [Drotm.loop] at h
    cases hx : rd x ix with
    | error e1 =>
      rw [hx] at h
      injection h with h
      subst h
      exact rd_error x ix _ hx
    | ok w =>
      rw [hx] at h
      simp only [] at h
      cases hy : rd y iy with
      | error e1 =>
        rw [hy] at h
        injection h with h
        subst h
        exact rd_error y iy _ hy
      | ok z =>
        rw [hy] at h
        simp only [] at h
        cases hwx : wr x ix (f w z).1 with
        | error e1 =>
          rw [hwx] at h
          injection h with h
          subst h
          exact wr_error x ix _ _ hwx
        | ok x1 =>
          rw [hwx] at h
          simp only [] at h
          cases hwy : wr y iy (f w z).2 with
          | error e1 =>
            rw [hwy] at h
            injection h with h
            subst h
            exact wr_error y iy _ _ hwy
          | ok y1 =>
            rw [hwy] at h
            simp only [] at h
            exact ih _ _ _ _ _ h

theorem Drotm_fastLoop_error (f : α → α → α × α) (nsteps incX : Int) :
    ∀ (fuel : Nat) (i : Int) (x y : List α) (e : Panic),
      Drotm.fastLoop f nsteps incX fuel i x y = some (.error e) → e = .indexOutOfRange := by
  intro fuel
  induction fuel with
  | zero => intro i x y e h; cases h
  | succ fuel ih =>
    intro i x y e h
    rw [Drotm.fastLoop] at h
    split_ifs at h with hlt
    · cases hx : rd x i with
      | error e1 =>
        rw [hx] at h
        injection h with h
        injection h with h
        subst h
        exact rd_error x i _ hx
      | ok w =>
        rw [hx] at h
        simp only [] at h
        cases hy : rd y i with
        | error e1 =>
          rw [hy] at h
          injection h with h
          injection h with h
          subst h
          exact rd_error y i _ hy
        | ok z =>
          rw [hy] at h
          simp only [] at h
          cases hwx : wr x i (f w z).1 with
          | error e1 =>
            rw [hwx] at h
            injection h with h
            injection h with h
            subst h
            exact wr_error x i _ _ hwx
          | ok x1 =>
            rw [hwx] at h
            simp only [] at h
            cases hwy : wr y i (f w z).2 with
            | error e1 =>
              rw [hwy] at h
              injection h with h
              injection h with h
              subst h
              exact wr_error y i _ _ hwy
            | ok y1 =>
              rw [hwy] at h
              simp only [] at h
              exact ih _ _ _ _ h
    · injection h with h
      cases h

theorem Drotm_flag_panic_iff [Add α] [Mul α] [Neg α] (fuel : Nat) (n : Int) (x : List α)
    (incX : Int) (y : List α) (incY : Int) (p : DrotmParams α) :
    (p.Flag ≠ -2 → Drotm fuel n x incX y incY p ≠ some (.error .flagNegative2))
      ∧ (p.Flag = -2 → 1 ≤ n → incX ≠ 0 → incY ≠ 0 →
          Drotm fuel n x incX y incY p = some (.error .flagNegative2)) := by
  constructor
  · intro hp h
    unfold Drotm Drotm.general at h
    have hne : Panic.flagNegative2 ≠ Panic.indexOutOfRange := by decide
    split_ifs at h <;> simp only [Option.some.injEq] at h
    all_goals first
      | cases h
      | exact hne (Drotm_fastLoop_error _ _ _ _ _ _ _ _ (by assumption))
      | exact hne (Drotm_loop_error _ _ _ _ _ _ _ _ _ h)
  · intro hp hn hX hY
    unfold Drotm
    rw [if_neg (by omega), if_neg (by simp [hX, hY]), if_pos hp]

/-- C15, the code at the failing input `d1 = 1`, `d2 = -1`, `x1 = 1`, `y1 = 1`
(`|q1| = |q2|`, `q2 < 0`): the guard `absQ1 < absQ2 && q2 < 0` is strict and lets the
input through, `u = 1 + H[0]*H[3]` is `0`, and `rd1 = d2 / u` divides by zero, whatever
the fuel. -/
theorem Drotmg_tie_divides_by_zero :
    ∀ fuel : Nat, Drotmg fuel (1 : ℝ) (-1) 1 1 = .error .zeroDivisor := by
  intro fuel
  norm_num [Drotmg, fdiv, bind, Except.bind]

/-- C16 (as stated) fails: `Drotmg(1, 0, 1, 1)` returns through the `p2 == 0`
short-circuit with `Flag = -2`, and `Drotm` applied to these parameters panics with
"flag is negative 2". -/
theorem Drotmg_returns_sentinel :
    Drotmg 1 (1 : ℝ) 0 1 1 = .ok (⟨-2, 0, 0, 0, 0⟩, 1, 0, 1)
      ∧ Drotm 2 1 [(1 : ℝ)] 1 [1] 1 ⟨-2, 0, 0, 0, 0⟩ = some (.error .flagNegative2) := by
  constructor
  · norm_num [Drotmg]
  · norm_num [Drotm]

/-- C16 (amended): whenever `Drotmg` returns, the returned flag is `-2` exactly when
`d1 ≥ 0` and `d2*y1 = 0`; with any other returned flag `Drotm` never fails with
"flag is negative 2", and with the flag `-2` it does, for `n ≥ 1` and non-zero
increments. -/
theorem Drotmg_sentinel_iff [LinearOrderedField α] (fuel : Nat) (d1 d2 x1 y1 : α)
    (res : DrotmParams α × α × α × α) (h : Drotmg fuel d1 d2 x1 y1 = .ok res) :
    (res.1.Flag = -2 ↔ (0 ≤ d1 ∧ d2 * y1 = 0))
      ∧ (res.1.Flag ≠ -2 → ∀ (fuel2 : Nat) (n : Int) (x : List α) (incX : Int) (y : List α)
          (incY : Int), Drotm fuel2 n x incX y incY res.1 ≠ some (.error .flagNegative2))
      ∧ (res.1.Flag = -2 → ∀ (fuel2 : Nat) (n : Int) (x : List α) (incX : Int) (y : List α)
          (incY : Int), 1 ≤ n → incX ≠ 0 → incY ≠ 0 →
          Drotm fuel2 n x incX y incY res.1 = some (.error .flagNegative2)) :=
  ⟨Drotmg_flag fuel d1 d2 x1 y1 res h,
    fun hne fuel2 n x incX y incY => (Drotm_flag_panic_iff fuel2 n x incX y incY res.1).1 hne,
    fun he fuel2 n x incX y incY => (Drotm_flag_panic_iff fuel2 n x incX y incY res.1).2 he⟩

theorem Drotmg_sentinel_iff_witness :
    Drotm 2 1 [(1 : ℚ)] 1 [1 / 2] 1 ⟨0, 0, -1 / 2, 1 / 2, 0⟩
      ≠ some (.error .flagNegative2) :=
  (Drotmg_sentinel_iff 1 (1 : ℚ) 1 1 (1 / 2) (⟨0, 0, -1 / 2, 1 / 2, 0⟩, 4 / 5, 4 / 5, 5 / 4)
    (by norm_num [Drotmg, Drotmg.rescale1, Drotmg.rescale2, fdiv, bind, Except.bind,
      abs_of_pos])).2.1 (by decide) 2 1 [1] 1 [1 / 2] 1

/-- C17, the code at the failing input `d1 = d2 = 2^25`, `x1 = 1`, `y1 = 1/2`: each
rescaling loop runs once; the second one finds `Flag = -1`, takes the `else` branch and
overwrites `H[1]`, `H[2]` with `-1`, `1`.  The returned `H = [4096, -4096, 1, 4096]`
maps `(x1, y1)` to `(8193/2, -2048)`, not to `(rx1, 0) = (5120, 0)`. -/
theorem Drotmg_second_rescale_resets_H :
    Drotmg 3 (33554432 : ℝ) 33554432 1 (1 / 2)
        = .ok (⟨-1, 4096, -4096, 1, 4096⟩, 8 / 5, 8 / 5, 5120)
      ∧ Drotm 2 1 [(1 : ℝ)] 1 [1 / 2] 1 ⟨-1, 4096, -4096, 1, 4096⟩
        = some (.ok ([8193 / 2], [-2048])) := by
  constructor
  · norm_num [Drotmg, Drotmg.rescale1, Drotmg.rescale2, fdiv, bind, Except.bind, abs_of_pos]
  · norm_num [Drotm, Drotm.fastLoop, rd, wr]

end Blas

namespace Blas

theorem rescale1_mono (gam gamsq rgamsq : ℝ) :
    ∀ (fuel : Nat) (p : DrotmParams ℝ) (rd1 rx1 : ℝ) (res : DrotmParams ℝ × ℝ × ℝ),
      Drotmg.rescale1 gam gamsq rgamsq fuel p rd1 rx1 = .ok res →
      Drotmg.rescale1 gam gamsq rgamsq (fuel + 1) p rd1 rx1 = .ok res := by
  intro fuel
  induction fuel with
  | zero => intro p rd1 rx1 res h; cases h
  | succ fuel ih =>
    intro p rd1 rx1 res h
    rw [Drotmg.rescale1] at h ⊢
    split_ifs at h ⊢
    all_goals first
      | exact ih _ _ _ _ h
      | exact h

theorem rescale1_mono_le (gam gamsq rgamsq : ℝ) (fuel fuel2 : Nat) (hle : fuel ≤ fuel2)
    (p : DrotmParams ℝ) (rd1 rx1 : ℝ) (res : DrotmParams ℝ × ℝ × ℝ)
    (h : Drotmg.rescale1 gam gamsq rgamsq fuel p rd1 rx1 = .ok res) :
    Drotmg.rescale1 gam gamsq rgamsq fuel2 p rd1 rx1 = .ok res := by
  induction fuel2 with
  | zero =>
    have : fuel = 0 := by omega
    subst this
    exact h
  | succ m ih =>
    rcases Nat.lt_or_ge fuel (m + 1) with hlt | hge
    · exact rescale1_mono _ _ _ _ _ _ _ _ (ih (by omega))
    · have : fuel = m + 1 := by omega
      subst this
      exact h

theorem rescale1_exits (gam gamsq rgamsq : ℝ) (p : DrotmParams ℝ) (rd1 rx1 : ℝ)
    (h1 : rgamsq < rd1) (h2 : rd1 < gamsq) :
    Drotmg.rescale1 gam gamsq rgamsq 1 p rd1 rx1 = .ok (p, rd1, rx1) := by
  rw [Drotmg.rescale1, if_neg]
  rintro (h | h) <;> linarith

theorem rescale1_terminates_upper (gam gamsq rgamsq : ℝ) (hG : 1 < gam * gam)
    (hr : rgamsq * (gam * gam) < gamsq) :
    ∀ (k : Nat) (rd1 : ℝ), rgamsq < rd1 → rd1 < gamsq * (gam * gam) ^ k →
      ∃ fuel, ∀ (p : DrotmParams ℝ) (rx1 : ℝ),
        ∃ res, Drotmg.rescale1 gam gamsq rgamsq fuel p rd1 rx1 = .ok res := by
  intro k
  induction k with
  | zero =>
    intro rd1 h1 h2
    simp only [pow_zero, mul_one] at h2
    exact ⟨1, fun p rx1 => ⟨_, rescale1_exits gam gamsq rgamsq p rd1 rx1 h1 h2⟩⟩
  | succ k ih =>
    intro rd1 h1 h2
    by_cases hlt : rd1 < gamsq
    · exact ⟨1, fun p rx1 => ⟨_, rescale1_exits gam gamsq rgamsq p rd1 rx1 h1 hlt⟩⟩
    · have hge : rd1 ≥ gamsq := not_lt.mp hlt
      have hGpos : 0 < gam * gam := by linarith
      have hd1 : rgamsq < rd1 / (gam * gam) := by
        rw [lt_div_iff₀ hGpos]
        linarith
      have hd2 : rd1 / (gam * gam) < gamsq * (gam * gam) ^ k := by
        rw [div_lt_iff₀ hGpos]
        calc rd1 < gamsq * (gam * gam) ^ (k + 1) := h2
          _ = gamsq * (gam * gam) ^ k * (gam * gam) := by ring
      obtain ⟨fuel, hfuel⟩ := ih (rd1 / (gam * gam)) hd1 hd2
      refine ⟨fuel + 1, fun p rx1 => ?_⟩
      rw [Drotmg.rescale1, if_pos (Or.inr hge)]
      simp only []
      rw [if_neg (by linarith)]
      exact hfuel _ _

theorem rescale1_terminates_lower (gam gamsq rgamsq : ℝ) (hG : 1 < gam * gam)
    (hr : rgamsq * (gam * gam) < gamsq) (hg0 : 0 < gamsq) :
    ∀ (k : Nat) (rd1 : ℝ), 0 < rd1 → rgamsq < rd1 * (gam * gam) ^ k →
      ∃ fuel, ∀ (p : DrotmParams ℝ) (rx1 : ℝ),
        ∃ res, Drotmg.rescale1 gam gamsq rgamsq fuel p rd1 rx1 = .ok res := by
  have upper : ∀ rd1 : ℝ, rgamsq < rd1 → ∃ fuel, ∀ (p : DrotmParams ℝ) (rx1 : ℝ),
      ∃ res, Drotmg.rescale1 gam gamsq rgamsq fuel p rd1 rx1 = .ok res := by
    intro rd1 h1
    obtain ⟨k, hk⟩ := pow_unbounded_of_one_lt (rd1 / gamsq) hG
    rw [div_lt_iff₀ hg0] at hk
    exact rescale1_terminates_upper gam gamsq rgamsq hG hr k rd1 h1 (by linarith)
  intro k
  induction k with
  | zero =>
    intro rd1 _ h2
    simp only [pow_zero, mul_one] at h2
    exact upper rd1 h2
  | succ k ih =>
    intro rd1 h0 h2
    by_cases hgt : rgamsq < rd1
    · exact upper rd1 hgt
    · have hle : rd1 ≤ rgamsq := not_lt.mp hgt
      have hGpos : 0 < gam * gam := by linarith
      obtain ⟨fuel, hfuel⟩ := ih (rd1 * (gam * gam)) (mul_pos h0 hGpos)
        (by rw [pow_succ] at h2; linarith [show rd1 * (gam * gam) * (gam * gam) ^ k
              = rd1 * ((gam * gam) ^ k * (gam * gam)) by ring])
      refine ⟨fuel + 1, fun p rx1 => ?_⟩
      rw [Drotmg.rescale1, if_pos (Or.inl hle)]
      simp only []
      rw [if_pos hle]
      exact hfuel _ _

theorem rescale1_terminates (gam gamsq rgamsq : ℝ) (hG : 1 < gam * gam)
    (hr : rgamsq * (gam * gam) < gamsq) (hr0 : 0 < rgamsq)
    (rd1 : ℝ) (h0 : 0 < rd1) :
    ∃ fuel, ∀ (p : DrotmParams ℝ) (rx1 : ℝ),
      ∃ res, Drotmg.rescale1 gam gamsq rgamsq fuel p rd1 rx1 = .ok res := by
  obtain ⟨k, hk⟩ := pow_unbounded_of_one_lt (rgamsq / rd1) hG
  rw [div_lt_iff₀ h0] at hk
  exact rescale1_terminates_lower gam gamsq rgamsq hG hr
    (by nlinarith) k rd1 h0
    (by linarith [mul_comm rd1 ((gam * gam) ^ k)])

theorem rescale2_mono (gam gamsq rgamsq : ℝ) :
    ∀ (fuel : Nat) (p : DrotmParams ℝ) (rd2 : ℝ) (res : DrotmParams ℝ × ℝ),
      Drotmg.rescale2 gam gamsq rgamsq fuel p rd2 = .ok res →
      Drotmg.rescale2 gam gamsq rgamsq (fuel + 1) p rd2 = .ok res := by
  intro fuel
  induction fuel with
  | zero => intro p rd2 res h; cases h
  | succ fuel ih =>
    intro p rd2 res h
    rw [Drotmg.rescale2] at h ⊢
    split_ifs at h ⊢
    all_goals first
      | exact ih _ _ _ h
      | exact h

theorem rescale2_mono_le (gam gamsq rgamsq : ℝ) (fuel fuel2 : Nat) (hle : fuel ≤ fuel2)
    (p : DrotmParams ℝ) (rd2 : ℝ) (res : DrotmParams ℝ × ℝ)
    (h : Drotmg.rescale2 gam gamsq rgamsq fuel p rd2 = .ok res) :
    Drotmg.rescale2 gam gamsq rgamsq fuel2 p rd2 = .ok res := by
  induction fuel2 with
  | zero =>
    have : fuel = 0 := by omega
    subst this
    exact h
  | succ m ih =>
    rcases Nat.lt_or_ge fuel (m + 1) with hlt | hge
    · exact rescale2_mono _ _ _ _ _ _ _ (ih (by omega))
    · have : fuel = m + 1 := by omega
      subst this
      exact h

theorem rescale2_exits (gam gamsq rgamsq : ℝ) (p : DrotmParams ℝ) (rd2 : ℝ)
    (h1 : rgamsq < |rd2|) (h2 : |rd2| < gamsq) :
    Drotmg.rescale2 gam gamsq rgamsq 1 p rd2 = .ok (p, rd2) := by
  rw [Drotmg.rescale2, if_neg]
  rintro (h | h) <;> linarith

theorem rescale2_terminates_upper (gam gamsq rgamsq : ℝ) (hG : 1 < gam * gam)
    (hr : rgamsq * (gam * gam) < gamsq) :
    ∀ (k : Nat) (rd2 : ℝ), rgamsq < |rd2| → |rd2| < gamsq * (gam * gam) ^ k →
      ∃ fuel, ∀ p : DrotmParams ℝ,
        ∃ res, Drotmg.rescale2 gam gamsq rgamsq fuel p rd2 = .ok res := by
  intro k
  induction k with
  | zero =>
    intro rd2 h1 h2
    simp only [pow_zero, mul_one] at h2
    exact ⟨1, fun p => ⟨_, rescale2_exits gam gamsq rgamsq p rd2 h1 h2⟩⟩
  | succ k ih =>
    intro rd2 h1 h2
    by_cases hlt : |rd2| < gamsq
    · exact ⟨1, fun p => ⟨_, rescale2_exits gam gamsq rgamsq p rd2 h1 hlt⟩⟩
    · have hge : |rd2| ≥ gamsq := not_lt.mp hlt
      have hGpos : 0 < gam * gam := by linarith
      have habs : |rd2 / (gam * gam)| = |rd2| / (gam * gam) := by
        rw [abs_div, abs_of_pos hGpos]
      have hd1 : rgamsq < |rd2 / (gam * gam)| := by
        rw [habs, lt_div_iff₀ hGpos]
        linarith
      have hd2 : |rd2 / (gam * gam)| < gamsq * (gam * gam) ^ k := by
        rw [habs, div_lt_iff₀ hGpos]
        calc |rd2| < gamsq * (gam * gam) ^ (k + 1) := h2
          _ = gamsq * (gam * gam) ^ k * (gam * gam) := by ring
      obtain ⟨fuel, hfuel⟩ := ih (rd2 / (gam * gam)) hd1 hd2
      refine ⟨fuel + 1, fun p => ?_⟩
      rw [Drotmg.rescale2, if_pos (Or.inr hge)]
      simp only []
      rw [if_neg (by linarith)]
      exact hfuel _

theorem rescale2_terminates_lower (gam gamsq rgamsq : ℝ) (hG : 1 < gam * gam)
    (hr : rgamsq * (gam * gam) < gamsq) (hg0 : 0 < gamsq) :
    ∀ (k : Nat) (rd2 : ℝ), 0 < |rd2| → rgamsq < |rd2| * (gam * gam) ^ k →
      ∃ fuel, ∀ p : DrotmParams ℝ,
        ∃ res, Drotmg.rescale2 gam gamsq rgamsq fuel p rd2 = .ok res := by
  have upper : ∀ rd2 : ℝ, rgamsq < |rd2| → ∃ fuel, ∀ p : DrotmParams ℝ,
      ∃ res, Drotmg.rescale2 gam gamsq rgamsq fuel p rd2 = .ok res := by
    intro rd2 h1
    obtain ⟨k, hk⟩ := pow_unbounded_of_one_lt (|rd2| / gamsq) hG
    rw [div_lt_iff₀ hg0] at hk
    exact rescale2_terminates_upper gam gamsq rgamsq hG hr k rd2 h1 (by linarith)
  intro k
  induction k with
  | zero =>
    intro rd2 _ h2
    simp only [pow_zero, mul_one] at h2
    exact upper rd2 h2
  | succ k ih =>
    intro rd2 h0 h2
    by_cases hgt : rgamsq < |rd2|
    · exact upper rd2 hgt
    · have hle : |rd2| ≤ rgamsq := not_lt.mp hgt
      have hGpos : 0 < gam * gam := by linarith
      have habs : |rd2 * (gam * gam)| = |rd2| * (gam * gam) := by
        rw [abs_mul, abs_of_pos hGpos]
      obtain ⟨fuel, hfuel⟩ := ih (rd2 * (gam * gam)) (by rw [habs]; exact mul_pos h0 hGpos)
        (by rw [habs]; rw [pow_succ] at h2
            linarith [show |rd2| * (gam * gam) * (gam * gam) ^ k
              = |rd2| * ((gam * gam) ^ k * (gam * gam)) by ring])
      refine ⟨fuel + 1, fun p => ?_⟩
      rw [Drotmg.rescale2, if_pos (Or.inl hle)]
      simp only []
      rw [if_pos hle]
      exact hfuel _

theorem rescale2_terminates (gam gamsq rgamsq : ℝ) (hG : 1 < gam * gam)
    (hr : rgamsq * (gam * gam) < gamsq) (hr0 : 0 < rgamsq)
    (rd2 : ℝ) (h0 : rd2 ≠ 0) :
    ∃ fuel, ∀ p : DrotmParams ℝ,
      ∃ res, Drotmg.rescale2 gam gamsq rgamsq fuel p rd2 = .ok res := by
  have hpos : 0 < |rd2| := abs_pos.mpr h0
  obtain ⟨k, hk⟩ := pow_unbounded_of_one_lt (rgamsq / |rd2|) hG
  rw [div_lt_iff₀ hpos] at hk
  exact rescale2_terminates_lower gam gamsq rgamsq hG hr
    (by nlinarith) k rd2 hpos (by linarith [mul_comm |rd2| ((gam * gam) ^ k)])

theorem Drotmg_loops_total (rd1 rd2 : ℝ) (h1 : 0 < rd1) (h2 : rd2 ≠ 0) :
    ∃ fuel, ∀ (pa : DrotmParams ℝ) (rx1 : ℝ),
      ∃ (r1 : DrotmParams ℝ × ℝ × ℝ) (r2 : DrotmParams ℝ × ℝ),
        Drotmg.rescale1 4096 16777216 (59604645 / 1000000000000000) fuel pa rd1 rx1 = .ok r1
          ∧ Drotmg.rescale2 4096 16777216 (59604645 / 1000000000000000) fuel r1.1 rd2
              = .ok r2 := by
  obtain ⟨f1, hf1⟩ := rescale1_terminates 4096 16777216 (59604645 / 1000000000000000)
    (by norm_num) (by norm_num) (by norm_num) rd1 h1
  obtain ⟨f2, hf2⟩ := rescale2_terminates 4096 16777216 (59604645 / 1000000000000000)
    (by norm_num) (by norm_num) (by norm_num) rd2 h2
  refine ⟨max f1 f2, fun pa rx1 => ?_⟩
  obtain ⟨r1, hr1⟩ := hf1 pa rx1
  obtain ⟨r2, hr2⟩ := hf2 r1.1
  exact ⟨r1, r2, rescale1_mono_le _ _ _ f1 _ (le_max_left f1 f2) _ _ _ _ hr1,
    rescale2_mono_le _ _ _ f2 _ (le_max_right f1 f2) _ _ _ hr2⟩

/-- Away from the tie `|q1| = |q2|`, `q2 < 0` (with `d1 > 0`, `p2 ≠ 0`), `Drotmg` is total
in exact real arithmetic: no divisor is zero and, with enough fuel, both rescaling
loops exit. -/
theorem Drotmg_total_off_tie (d1 d2 x1 y1 : ℝ)
    (hne : ¬ (0 < d1 ∧ d2 * y1 ≠ 0 ∧ |d1 * x1 * x1| = |d2 * y1 * y1| ∧ d2 * y1 * y1 < 0)) :
    ∃ fuel res, Drotmg fuel d1 d2 x1 y1 = .ok res := by
  unfold Drotmg
  simp only []
  by_cases hd : d1 < 0
  · exact ⟨0, _, by rw [if_pos hd]⟩
  by_cases hp2 : d2 * y1 = 0
  · exact ⟨0, _, by rw [if_neg hd, if_pos hp2]⟩
  by_cases hg : |d1 * x1 * x1| < |d2 * y1 * y1| ∧ d2 * y1 * y1 < 0
  · exact ⟨0, _, by rw [if_neg hd, if_neg hp2, if_pos hg]⟩
  have hd2 : d2 ≠ 0 := fun h => hp2 (by rw [h, zero_mul])
  have hy1 : y1 ≠ 0 := fun h => hp2 (by rw [h, mul_zero])
  by_cases hd0 : d1 = 0
  · refine ⟨0, ?_⟩
    rw [if_neg hd, if_neg hp2, if_neg hg, if_pos hd0]
    subst hd0
    simp [fdiv, hp2, hy1, bind, Except.bind]
  have hdpos : 0 < d1 := lt_of_le_of_ne (not_lt.mp hd) (Ne.symm hd0)
  by_cases hA : |d1 * x1 * x1| > |d2 * y1 * y1|
  · have hx1 : x1 ≠ 0 := by
      intro h
      rw [h] at hA
      simp at hA
      exact absurd hA (not_lt.mpr (abs_nonneg _))
    have hp1 : d1 * x1 ≠ 0 := mul_ne_zero hd0 hx1
    have hq1 : 0 < d1 * x1 * x1 := by
      have := mul_self_pos.mpr hx1
      nlinarith
    have hu : 0 < 1 - d2 * y1 / (d1 * x1) * (-y1 / x1) := by
      have e : 1 - d2 * y1 / (d1 * x1) * (-y1 / x1)
          = (d1 * x1 * x1 + d2 * y1 * y1) / (d1 * x1 * x1) := by
        field_simp
      rw [e]
      apply div_pos _ hq1
      rw [abs_of_pos hq1] at hA
      have := neg_abs_le (d2 * y1 * y1)
      linarith
    obtain ⟨fuel, hfuel⟩ := Drotmg_loops_total (d1 / (1 - d2 * y1 / (d1 * x1) * (-y1 / x1)))
      (d2 / (1 - d2 * y1 / (d1 * x1) * (-y1 / x1))) (div_pos hdpos hu)
      (div_ne_zero hd2 hu.ne.symm)
    refine ⟨fuel, ?_⟩
    rw [if_neg hd, if_neg hp2, if_neg hg, if_neg hd0, if_pos hA]
    obtain ⟨r1, r2, hr1, hr2⟩ := hfuel ⟨0, 0, -y1 / x1, d2 * y1 / (d1 * x1), 0⟩
      (x1 * (1 - d2 * y1 / (d1 * x1) * (-y1 / x1)))
    simp [fdiv, hx1, hd0, hu.ne.symm, bind, Except.bind, hr1, hr2]
  · have hq2 : 0 < d2 * y1 * y1 := by
      rcases lt_trichotomy (d2 * y1 * y1) 0 with h | h | h
      · exfalso
        apply hne
        refine ⟨hdpos, hp2, ?_, h⟩
        apply le_antisymm (not_lt.mp hA)
        by_contra hcon
        exact hg ⟨not_le.mp hcon, h⟩
      · exfalso
        rcases mul_eq_zero.mp h with h' | h'
        · exact hp2 h'
        · exact hy1 h'
      · exact h
    have hq1 : 0 ≤ d1 * x1 * x1 := by nlinarith [mul_self_nonneg x1]
    have hd2pos : 0 < d2 := by
      have := mul_self_pos.mpr hy1
      by_contra hcon
      have : d2 * y1 * y1 ≤ 0 := by nlinarith
      linarith
    have hu : 0 < 1 + d1 * x1 / (d2 * y1) * (x1 / y1) := by
      have e : 1 + d1 * x1 / (d2 * y1) * (x1 / y1)
          = (d2 * y1 * y1 + d1 * x1 * x1) / (d2 * y1 * y1) := by
        field_simp
      rw [e]
      apply div_pos _ hq2
      linarith
    obtain ⟨fuel, hfuel⟩ := Drotmg_loops_total (d2 / (1 + d1 * x1 / (d2 * y1) * (x1 / y1)))
      (d1 / (1 + d1 * x1 / (d2 * y1) * (x1 / y1))) (div_pos hd2pos hu)
      (div_ne_zero hd0 hu.ne.symm)
    refine ⟨fuel, ?_⟩
    rw [if_neg hd, if_neg hp2, if_neg hg, if_neg hd0, if_neg hA]
    obtain ⟨r1, r2, hr1, hr2⟩ := hfuel ⟨1, d1 * x1 / (d2 * y1), 0, 0, x1 / y1⟩
      (y1 * (1 + d1 * x1 / (d2 * y1) * (x1 / y1)))
    simp [fdiv, hy1, hd2, hu.ne.symm, bind, Except.bind, hr1, hr2]

end Blas

namespace Blas

theorem rescale1_keeps_neg1 (gam gamsq rgamsq : ℝ) :
    ∀ (fuel : Nat) (p : DrotmParams ℝ) (rd1 rx1 : ℝ) (res : DrotmParams ℝ × ℝ × ℝ),
      Drotmg.rescale1 gam gamsq rgamsq fuel p rd1 rx1 = .ok res →
      p.Flag = -1 → res.1.Flag = -1 := by
  intro fuel
  induction fuel with
  | zero => intro p rd1 rx1 res h; cases h
  | succ fuel ih =>
    intro p rd1 rx1 res h hp
    rw [Drotmg.rescale1] at h
    split_ifs at h
    all_goals first
      | exact ih _ _ _ _ h (by simp)
      | (injection h with h; subst h; exact hp)

theorem rescale1_noop (gam gamsq rgamsq : ℝ) (fuel : Nat) (p : DrotmParams ℝ) (rd1 rx1 : ℝ)
    (res : DrotmParams ℝ × ℝ × ℝ)
    (h : Drotmg.rescale1 gam gamsq rgamsq fuel p rd1 rx1 = .ok res)
    (hflag : res.1.Flag ≠ -1) : res = (p, rd1, rx1) := by
  cases fuel with
  | zero => cases h
  | succ fuel =>
    rw [Drotmg.rescale1] at h
    split_ifs at h
    all_goals first
      | exact absurd (rescale1_keeps_neg1 _ _ _ _ _ _ _ _ h (by simp)) hflag
      | (injection h with h; exact h.symm)

theorem rescale2_keeps_neg1 (gam gamsq rgamsq : ℝ) :
    ∀ (fuel : Nat) (p : DrotmParams ℝ) (rd2 : ℝ) (res : DrotmParams ℝ × ℝ),
      Drotmg.rescale2 gam gamsq rgamsq fuel p rd2 = .ok res →
      p.Flag = -1 → res.1.Flag = -1 := by
  intro fuel
  induction fuel with
  | zero => intro p rd2 res h; cases h
  | succ fuel ih =>
    intro p rd2 res h hp
    rw [Drotmg.rescale2] at h
    split_ifs at h
    all_goals first
      | exact ih _ _ _ h (by simp)
      | (injection h with h; subst h; exact hp)

theorem rescale2_noop (gam gamsq rgamsq : ℝ) (fuel : Nat) (p : DrotmParams ℝ) (rd2 : ℝ)
    (res : DrotmParams ℝ × ℝ)
    (h : Drotmg.rescale2 gam gamsq rgamsq fuel p rd2 = .ok res)
    (hflag : res.1.Flag ≠ -1) : res = (p, rd2) := by
  cases fuel with
  | zero => cases h
  | succ fuel =>
    rw [Drotmg.rescale2] at h
    split_ifs at h
    all_goals first
      | exact absurd (rescale2_keeps_neg1 _ _ _ _ _ _ _ h (by simp)) hflag
      | (injection h with h; exact h.symm)

/-- When neither rescaling loop iterates (the returned flag is not `-1`), the `H` that
`Drotmg` returns for `d1 > 0`, `p2 ≠ 0` and `|q1| > |q2|` or `q2 > 0` maps `(x1, y1)` to
`(rx1, 0)`, applied as `Drotm` does. -/
theorem Drotmg_zeroes_y1_without_rescale (fuel : Nat) (d1 d2 x1 y1 : ℝ)
    (res : DrotmParams ℝ × ℝ × ℝ × ℝ) (hd1 : 0 < d1) (hp2 : d2 * y1 ≠ 0)
    (hsel : |d1 * x1 * x1| > |d2 * y1 * y1| ∨ 0 < d2 * y1 * y1)
    (h : Drotmg fuel d1 d2 x1 y1 = .ok res) (hflag : res.1.Flag ≠ -1) :
    Drotm 2 1 [x1] 1 [y1] 1 res.1 = some (.ok ([res.2.2.2], [0])) := by
  have hd2 : d2 ≠ 0 := fun h => hp2 (by rw [h, zero_mul])
  have hy1 : y1 ≠ 0 := fun h => hp2 (by rw [h, mul_zero])
  unfold Drotmg at h
  simp only [] at h
  rw [if_neg (not_lt.mpr hd1.le), if_neg hp2] at h
  have hg : ¬ (|d1 * x1 * x1| < |d2 * y1 * y1| ∧ d2 * y1 * y1 < 0) := by
    rintro ⟨h1, h2⟩
    rcases hsel with h3 | h3 <;> linarith
  rw [if_neg hg, if_neg hd1.ne.symm] at h
  simp only [bind_ok_iff] at h
  obtain ⟨⟨pa, rd1, rd2, rx1⟩, hsel2, r1, hr1, r2, hr2, hfin⟩ := h
  injection hfin with hfin
  subst hfin
  simp only [] at hflag hr1 hr2 ⊢
  have e2 := rescale2_noop _ _ _ _ _ _ _ hr2 hflag
  have hf1 : r1.1.Flag ≠ -1 := by
    intro hcon
    exact hflag (rescale2_keeps_neg1 _ _ _ _ _ _ _ hr2 hcon)
  have e1 := rescale1_noop _ _ _ _ _ _ _ _ hr1 hf1
  subst e1
  subst e2
  simp only []
  by_cases hA : |d1 * x1 * x1| > |d2 * y1 * y1|
  · have hx1 : x1 ≠ 0 := by
      intro h
      rw [h] at hA
      simp at hA
      exact absurd hA (not_lt.mpr (abs_nonneg _))
    rw [if_pos hA] at hsel2
    simp only [bind_ok_iff] at hsel2
    obtain ⟨a1, ha1, a2, ha2, a3, ha3, a4, ha4, hsel2⟩ := hsel2
    injection hsel2 with hsel2
    simp only [fdiv, hx1, if_false, mul_ne_zero hd1.ne.symm hx1] at ha1 ha2
    injection ha1 with ha1
    injection ha2 with ha2
    simp only [Prod.mk.injEq] at hsel2
    obtain ⟨rfl, -, -, rfl⟩ := hsel2
    subst ha1 ha2
    have ex : x1 + y1 * (d2 * y1 / (d1 * x1)) = x1 * (1 - d2 * y1 / (d1 * x1) * (-y1 / x1)) := by
      field_simp
      ring
    have ey : x1 * (-y1 / x1) + y1 = 0 := by
      field_simp
      ring
    simp [Drotm, Drotm.fastLoop, rd, wr, ex, ey]
  · rw [if_neg hA] at hsel2
    simp only [bind_ok_iff] at hsel2
    obtain ⟨a1, ha1, a2, ha2, a3, ha3, a4, ha4, hsel2⟩ := hsel2
    injection hsel2 with hsel2
    simp only [fdiv, hy1, hp2, if_false] at ha1 ha2
    injection ha1 with ha1
    injection ha2 with ha2
    simp only [Prod.mk.injEq] at hsel2
    obtain ⟨rfl, -, -, rfl⟩ := hsel2
    subst ha1 ha2
    have ex : x1 * (d1 * x1 / (d2 * y1)) + y1 = y1 * (1 + d1 * x1 / (d2 * y1) * (x1 / y1)) := by
      field_simp
      ring
    have ey : -x1 + x1 / y1 * y1 = 0 := by
      field_simp
    simp [Drotm, Drotm.fastLoop, rd, wr, ex, ey]

end Blas

namespace Zbw
variable {β : Type}

theorem wrap64_of_fits (z : Int) (h : fits64 z) : wrap64 z = z := by
  unfold fits64 at h
  unfold wrap64
  omega

theorem isub_one_of_nonneg (z : Int) (h0 : 0 ≤ z) (h : fits64 z) : isub z 1 = z - 1 := by
  unfold fits64 at h
  unfold isub wrap64
  omega

theorem extent_expr_eq (a s c : Int) (h0 : 0 ≤ a) (ha : fits64 a)
    (h1 : fits64 ((a - 1) * s)) (h2 : fits64 ((a - 1) * s + c)) :
    iadd (imul (isub a 1) s) c = (a - 1) * s + c := by
  rw [isub_one_of_nonneg a h0 ha]
  unfold iadd imul
  rw [wrap64_of_fits _ h1, wrap64_of_fits _ h2]

theorem Check_none_facts (A : General β) (hfit : A.ExtentFits) (h : A.Check = none) :
    0 ≤ A.Rows ∧ 0 ≤ A.Cols ∧ 1 ≤ A.Stride ∧
      ((A.Order = .RowMajor ∧ A.Cols ≤ A.Stride
          ∧ (A.Rows - 1) * A.Stride + A.Cols ≤ A.Data.length)
        ∨ (A.Order = .ColMajor ∧ A.Rows ≤ A.Stride
          ∧ (A.Cols - 1) * A.Stride + A.Rows ≤ A.Data.length)) := by
  obtain ⟨hR, hC, hrow, hcol⟩ := hfit
  unfold General.Check at h
  by_cases c1 : A.Cols < 0
  · rw [if_pos c1] at h; cases h
  rw [if_neg c1] at h
  by_cases c2 : A.Rows < 0
  · rw [if_pos c2] at h; cases h
  rw [if_neg c2] at h
  by_cases c3 : A.Stride < 1
  · rw [if_pos c3] at h; cases h
  rw [if_neg c3] at h
  refine ⟨by omega, by omega, by omega, ?_⟩
  by_cases hoc : A.Order = .ColMajor
  · rw [if_pos hoc] at h
    have hf := hcol hoc
    rw [extent_expr_eq A.Cols A.Stride A.Rows (by omega) hC hf.1 hf.2] at h
    split_ifs at h with c4 c5
    exact Or.inr ⟨hoc, by omega, by omega⟩
  · rw [if_neg hoc] at h
    by_cases hor : A.Order = .RowMajor
    · rw [if_pos hor] at h
      have hf := hrow hor
      rw [extent_expr_eq A.Rows A.Stride A.Cols (by omega) hR hf.1 hf.2] at h
      split_ifs at h with c4 c5
      exact Or.inl ⟨hor, by omega, by omega⟩
    · rw [if_neg hor] at h; cases h

/-- C9 (as stated) fails where the extent expression overflows: for the row-major view
with `Rows = 3`, `Cols = 1`, `Stride = 2^62` over a one-element buffer the 64-bit value
of `(Rows-1)*Stride + Cols` is `-2^63 + 1`, `Check` returns `nil`, and the buffer is
shorter than `(Rows-1)*Stride + Cols`. -/
theorem General_Check_accepts_overflowing_extent :
    (General.mk Order.RowMajor 3 1 4611686018427387904 ([7] : List ℂ)).Check = none
      ∧ ¬ ((3 - 1) * 4611686018427387904 + 1 ≤ ((([7] : List ℂ).length : Nat) : Int)) :=
  ⟨rfl, by decide⟩

/-- C9 (amended): for a `General` value whose extent expression does not overflow,
`Check` returns `nil` exactly on the valid layouts; the row-major view with `Rows = 2`,
`Cols = 3` over a 6-element buffer is rejected with `Stride = 2` and accepted with
`Stride = 3`. -/
theorem General_Check_accepts_iff_no_overflow (A : General β) (hfit : A.ExtentFits) :
    (A.Check = none ↔
        (A.Order = .RowMajor ∨ A.Order = .ColMajor) ∧ 0 ≤ A.Rows ∧ 0 ≤ A.Cols ∧ 1 ≤ A.Stride
          ∧ (A.Order = .RowMajor →
              A.Cols ≤ A.Stride ∧ (A.Rows - 1) * A.Stride + A.Cols ≤ A.Data.length)
          ∧ (A.Order = .ColMajor →
              A.Rows ≤ A.Stride ∧ (A.Cols - 1) * A.Stride + A.Rows ≤ A.Data.length))
      ∧ (∀ d : List β, d.length = 6 →
          (General.mk .RowMajor 2 3 2 d).Check ≠ none
            ∧ (General.mk .RowMajor 2 3 3 d).Check = none) := by
  constructor
  · constructor
    · intro h
      obtain ⟨hr, hc, hs, hord⟩ := Check_none_facts A hfit h
      rcases hord with ⟨ho, h1, h2⟩ | ⟨ho, h1, h2⟩
      · refine ⟨Or.inl ho, hr, hc, hs, fun _ => ⟨h1, h2⟩, fun hcm => ?_⟩
        rw [ho] at hcm; cases hcm
      · refine ⟨Or.inr ho, hr, hc, hs, fun hrm => ?_, fun _ => ⟨h1, h2⟩⟩
        rw [ho] at hrm; cases hrm
    · rintro ⟨ho, hr, hc, hs, hrow, hcol⟩
      obtain ⟨hR, hC, frow, fcol⟩ := hfit
      unfold General.Check
      rw [if_neg (by omega), if_neg (by omega), if_neg (by omega)]
      rcases ho with ho | ho
      · have hf := frow ho
        have hv := hrow ho
        rw [if_neg (by rw [ho]; decide), if_pos ho,
          extent_expr_eq A.Rows A.Stride A.Cols hr hR hf.1 hf.2,
          if_neg (by omega), if_neg (by omega)]
      · have hf := fcol ho
        have hv := hcol ho
        rw [if_pos ho, extent_expr_eq A.Cols A.Stride A.Rows hc hC hf.1 hf.2,
          if_neg (by omega), if_neg (by omega)]
  · intro d hd
    constructor
    · simp [General.Check]
    · simp [General.Check, hd, iadd, imul, isub, wrap64]

theorem General_Check_accepts_iff_no_overflow_witness :
    (General.mk Order.RowMajor 2 3 3 ([1, 2, 3, 4, 5, 6] : List ℂ)).Check = none :=
  ((General_Check_accepts_iff_no_overflow
    (General.mk Order.RowMajor 2 3 3 ([1, 2, 3, 4, 5, 6] : List ℂ)) (by decide)).1).mpr
    ⟨Or.inl rfl, by decide, by decide, by decide, fun _ => ⟨by decide, by decide⟩,
      fun h => by cases h⟩

end Zbw

namespace Zbw
variable {β : Type}

theorem Check_of_full_buffer (o : Order) (a b : Int) (d : List β)
    (ha : 0 ≤ a) (hb : 1 ≤ b) (hfa : fits64 a) (hfb : fits64 b) (hab : fits64 (a * b))
    (hd : (d.length : Int) = a * b) :
    (o = .RowMajor → (General.mk o a b b d).Check = none)
      ∧ (o = .ColMajor → (General.mk o b a b d).Check = none) := by
  have hprod : fits64 ((a - 1) * b) := by
    have e : (a - 1) * b = a * b - b := by ring
    have h0 : 0 ≤ a * b := mul_nonneg ha (by omega)
    unfold fits64 at *
    omega
  have hsum : fits64 ((a - 1) * b + b) := by
    have e : (a - 1) * b + b = a * b := by ring
    rw [e]
    exact hab
  have hle : (a - 1) * b + b ≤ (d.length : Int) := by
    rw [hd]
    linarith [show (a - 1) * b + b = a * b by ring]
  constructor
  · intro ho
    subst ho
    unfold General.Check
    simp only [reduceCtorEq, if_false, if_true]
    rw [extent_expr_eq a b b ha hfa hprod hsum, if_neg (by omega), if_neg (by omega),
      if_neg (by omega), if_neg (by omega), if_neg (by omega)]
  · intro ho
    subst ho
    unfold General.Check
    simp only [reduceCtorEq, if_false, if_true]
    rw [extent_expr_eq a b b ha hfa hprod hsum, if_neg (by omega), if_neg (by omega),
      if_neg (by omega), if_neg (by omega), if_neg (by omega)]

/-- C10 (as stated) fails in three ways, with the allocation limit `2^44` of a 64-bit
platform: `NewGeneral(RowMajor, 0, 0, nil)` sets `Stride = n = 0` and panics with the
"illegal stride" error of `Check`; `NewGeneral(RowMajor, 2^32, 2^32, nil)` returns a view
over an empty buffer, because `m*n` wraps to `0`; and `NewGeneral(RowMajor, 2^31, 2^31, nil)`
panics in `make`, whose length `2^62` is out of range. -/
theorem NewGeneral_nil_failures :
    NewGeneral 17592186044416 Order.RowMajor 0 0 (none : Option (List ℂ))
        = .error (.check .illegalStride)
      ∧ NewGeneral 17592186044416 Order.RowMajor 4294967296 4294967296
          (none : Option (List ℂ))
        = .ok (General.mk Order.RowMajor 4294967296 4294967296 4294967296 [])
      ∧ NewGeneral 17592186044416 Order.RowMajor 2147483648 2147483648
          (none : Option (List ℂ))
        = .error .makeslice :=
  ⟨rfl, rfl, rfl⟩

/-- C10 (amended): for a recognised order, extents `m ≥ 0`, `n ≥ 0` of type `int` with a
leading extent of at least `1` (`n` row-major, `m` column-major) whose product `m*n`
does not overflow and is within the allocation limit of `make`, `NewGeneral(o, m, n, nil)`
returns a view with `Rows = m`, `Cols = n`, a zero-initialised buffer of length `m*n`, and
`Check() = nil`. -/
theorem NewGeneral_nil_validated [Zero β] (maxLen : Nat) (o : Order) (m n : Int)
    (ho : o = .RowMajor ∨ o = .ColMajor) (hm : 0 ≤ m) (hn : 0 ≤ n)
    (hlead : (o = .RowMajor → 1 ≤ n) ∧ (o = .ColMajor → 1 ≤ m))
    (hfm : fits64 m) (hfn : fits64 n) (hmn : fits64 (m * n)) (halloc : m * n ≤ maxLen) :
    ∃ A : General β, NewGeneral maxLen o m n none = .ok A ∧ A.Order = o ∧ A.Rows = m
      ∧ A.Cols = n ∧ A.Data = List.replicate (m * n).toNat 0
      ∧ (A.Data.length : Int) = m * n ∧ A.Check = none := by
  have h0 : 0 ≤ m * n := mul_nonneg hm hn
  have hlen : (((List.replicate (m * n).toNat (0 : β)).length : Nat) : Int) = m * n := by
    rw [List.length_replicate, Int.toNat_of_nonneg h0]
  have hmk : make maxLen (imul m n) = .ok (List.replicate (m * n).toNat (0 : β)) := by
    unfold make imul
    rw [wrap64_of_fits _ hmn, if_neg (by omega)]
  rcases ho with rfl | rfl
  · have h1 := hlead.1 rfl
    have hc := (Check_of_full_buffer Order.RowMajor m n
      (List.replicate (m * n).toNat (0 : β)) hm h1 hfm hfn hmn hlen).1 rfl
    refine ⟨⟨.RowMajor, m, n, n, List.replicate (m * n).toNat 0⟩, ?_, rfl, rfl, rfl, rfl,
      hlen, hc⟩
    simp only [NewGeneral, hmk, if_true, hc, must]
  · have h1 := hlead.2 rfl
    have hc := (Check_of_full_buffer Order.ColMajor n m
      (List.replicate (m * n).toNat (0 : β)) hn h1 hfn hfm (by rw [mul_comm]; exact hmn)
      (by rw [hlen, mul_comm])).2 rfl
    refine ⟨⟨.ColMajor, m, n, m, List.replicate (m * n).toNat 0⟩, ?_, rfl, rfl, rfl, rfl,
      hlen, hc⟩
    simp only [NewGeneral, hmk, reduceCtorEq, if_false, hc, must]

theorem NewGeneral_nil_validated_witness :
    ∃ A : General ℂ, NewGeneral 17592186044416 Order.RowMajor 2 3 none = .ok A
      ∧ A.Order = Order.RowMajor ∧ A.Rows = 2 ∧ A.Cols = 3
      ∧ A.Data = List.replicate ((2 : Int) * 3).toNat 0 ∧ (A.Data.length : Int) = 2 * 3
      ∧ A.Check = none :=
  NewGeneral_nil_validated 17592186044416 Order.RowMajor 2 3 (Or.inl rfl) (by decide)
    (by decide) ⟨fun _ => by decide, fun h => by cases h⟩ (by decide) (by decide)
    (by decide) (by decide)

end Zbw

namespace Zbw
variable {β : Type}

theorem index_row_major_eq (A : General β) (hfit : A.ExtentFits) (ho : A.Order = .RowMajor)
    (hs : 1 ≤ A.Stride) (i j : Int)
    (hi0 : 0 ≤ i) (hi : i < A.Rows) (hj0 : 0 ≤ j) (hj : j < A.Cols) :
    A.Index i j = i * A.Stride + j ∧ imul A.Stride i = i * A.Stride := by
  obtain ⟨hR, hC, hrow, _⟩ := hfit
  have hf := hrow ho
  have h1 : 0 ≤ i * A.Stride := mul_nonneg hi0 (by omega)
  have h2 : i * A.Stride ≤ (A.Rows - 1) * A.Stride :=
    mul_le_mul_of_nonneg_right (by omega) (by omega)
  have f1 : fits64 (i * A.Stride) := by
    unfold fits64 at *
    omega
  have f2 : fits64 (i * A.Stride + j) := by
    unfold fits64 at *
    omega
  constructor
  · simp only [General.Index, ho, if_true, iadd, imul]
    rw [wrap64_of_fits _ f1, wrap64_of_fits _ f2]
  · unfold imul
    rw [mul_comm, wrap64_of_fits _ f1]

theorem index_col_major_eq (A : General β) (hfit : A.ExtentFits) (ho : A.Order = .ColMajor)
    (hs : 1 ≤ A.Stride) (i j : Int)
    (hi0 : 0 ≤ i) (hi : i < A.Rows) (hj0 : 0 ≤ j) (hj : j < A.Cols) :
    A.Index i j = i + j * A.Stride ∧ imul A.Stride j = j * A.Stride := by
  obtain ⟨hR, hC, _, hcol⟩ := hfit
  have hf := hcol ho
  have h1 : 0 ≤ j * A.Stride := mul_nonneg hj0 (by omega)
  have h2 : j * A.Stride ≤ (A.Cols - 1) * A.Stride :=
    mul_le_mul_of_nonneg_right (by omega) (by omega)
  have f1 : fits64 (j * A.Stride) := by
    unfold fits64 at *
    omega
  have f2 : fits64 (i + j * A.Stride) := by
    unfold fits64 at *
    omega
  constructor
  · simp only [General.Index, ho, reduceCtorEq, if_false, iadd, imul]
    rw [wrap64_of_fits _ f1, wrap64_of_fits _ f2]
  · unfold imul
    rw [mul_comm, wrap64_of_fits _ f1]

theorem strided_pair_injective (s a b j k : Int) (h : a * s + j = b * s + k)
    (hj0 : 0 ≤ j) (hj : j < s) (hk0 : 0 ≤ k) (hk : k < s) : a = b ∧ j = k := by
  have hab : a = b := by
    rcases lt_trichotomy a b with hlt | heq | hgt
    · exfalso
      have : 0 ≤ (b - a - 1) * s := mul_nonneg (by omega) (by omega)
      nlinarith
    · exact heq
    · exfalso
      have : 0 ≤ (a - b - 1) * s := mul_nonneg (by omega) (by omega)
      nlinarith
  subst hab
  exact ⟨rfl, by linarith⟩

/-- C21 (as stated) fails where the extent expression overflows: the row-major view
with `Rows = 3`, `Cols = 1`, `Stride = 2^62` over a one-element buffer passes `Check`,
`Index(1, 0) = 2^62` lies outside the buffer, and `Index(2, 0)` wraps to `-2^63`. -/
theorem General_Index_out_of_bounds_on_overflow :
    (General.mk Order.RowMajor 3 1 4611686018427387904 ([7] : List ℂ)).Check = none
      ∧ (General.mk Order.RowMajor 3 1 4611686018427387904 ([7] : List ℂ)).Index 1 0
          = 4611686018427387904
      ∧ ¬ ((4611686018427387904 : Int) < ((([7] : List ℂ).length : Nat) : Int))
      ∧ (General.mk Order.RowMajor 3 1 4611686018427387904 ([7] : List ℂ)).Index 2 0
          = -9223372036854775808 :=
  ⟨rfl, rfl, by decide, rfl⟩

/-- C21 (amended): on a view that passes `Check` and whose extent expression does not
overflow, `Index(i, j)` of every cell of the `Rows × Cols` rectangle is a valid position
of the backing buffer, and two cells of the rectangle with the same index are the same
cell. -/
theorem General_Index_in_bounds_injective (A : General β) (hfit : A.ExtentFits)
    (hA : A.Check = none) :
    (∀ i j : Int, 0 ≤ i → i < A.Rows → 0 ≤ j → j < A.Cols →
        0 ≤ A.Index i j ∧ A.Index i j < A.Data.length)
      ∧ (∀ i j i2 j2 : Int, 0 ≤ i → i < A.Rows → 0 ≤ j → j < A.Cols →
          0 ≤ i2 → i2 < A.Rows → 0 ≤ j2 → j2 < A.Cols →
          A.Index i j = A.Index i2 j2 → i = i2 ∧ j = j2) := by
  obtain ⟨hr, hc, hs, hord⟩ := Check_none_facts A hfit hA
  rcases hord with ⟨ho, hst, hlen⟩ | ⟨ho, hst, hlen⟩
  · have hidx : ∀ i j : Int, 0 ≤ i → i < A.Rows → 0 ≤ j → j < A.Cols →
        A.Index i j = i * A.Stride + j :=
      fun i j a b c d => (index_row_major_eq A hfit ho hs i j a b c d).1
    constructor
    · intro i j hi0 hi hj0 hj
      rw [hidx i j hi0 hi hj0 hj]
      have h1 : 0 ≤ i * A.Stride := mul_nonneg hi0 (by omega)
      have h2 : i * A.Stride ≤ (A.Rows - 1) * A.Stride :=
        mul_le_mul_of_nonneg_right (by omega) (by omega)
      omega
    · intro i j i2 j2 hi0 hi hj0 hj hi20 hi2 hk0 hk h
      rw [hidx i j hi0 hi hj0 hj, hidx i2 j2 hi20 hi2 hk0 hk] at h
      exact strided_pair_injective A.Stride i i2 j j2 h hj0 (by omega) hk0 (by omega)
  · have hidx : ∀ i j : Int, 0 ≤ i → i < A.Rows → 0 ≤ j → j < A.Cols →
        A.Index i j = i + j * A.Stride :=
      fun i j a b c d => (index_col_major_eq A hfit ho hs i j a b c d).1
    constructor
    · intro i j hi0 hi hj0 hj
      rw [hidx i j hi0 hi hj0 hj]
      have h1 : 0 ≤ j * A.Stride := mul_nonneg hj0 (by omega)
      have h2 : j * A.Stride ≤ (A.Cols - 1) * A.Stride :=
        mul_le_mul_of_nonneg_right (by omega) (by omega)
      omega
    · intro i j i2 j2 hi0 hi hj0 hj hi20 hi2 hk0 hk h
      rw [hidx i j hi0 hi hj0 hj, hidx i2 j2 hi20 hi2 hk0 hk] at h
      have := strided_pair_injective A.Stride j j2 i i2 (by linarith) hi0 (by omega) hi20
        (by omega)
      exact ⟨this.2, this.1⟩

theorem General_Index_in_bounds_injective_witness :
    0 ≤ (General.mk Order.RowMajor 2 3 3 ([1, 2, 3, 4, 5, 6] : List ℂ)).Index 1 2
      ∧ (General.mk Order.RowMajor 2 3 3 ([1, 2, 3, 4, 5, 6] : List ℂ)).Index 1 2
          < (([1, 2, 3, 4, 5, 6] : List ℂ).length : Int) :=
  (General_Index_in_bounds_injective
    (General.mk Order.RowMajor 2 3 3 ([1, 2, 3, 4, 5, 6] : List ℂ)) (by decide) rfl).1 1 2
    (by decide) (by decide) (by decide) (by decide)

end Zbw

namespace Zbw
variable {β : Type}

theorem General_Row_spec (A : General β) (hfit : A.ExtentFits) (hA : A.Check = none)
    (i : Int) :
    (A.Row i = .error .indexOutOfRange ↔ i < 0 ∨ A.Rows ≤ i)
      ∧ (0 ≤ i → i < A.Rows → (A.Order = .RowMajor ∨ 1 ≤ A.Cols) →
          ∃ (v : Vector β) (off : Nat), A.Row i = .ok v ∧ v.N = A.Cols
            ∧ v.Inc = (if A.Order = .RowMajor then 1 else A.Stride)
            ∧ v.Data = A.Data.drop off
            ∧ (∀ k : Int, 0 ≤ k → k < A.Cols →
                (off : Int) + k * v.Inc = A.Index i k ∧ A.Index i k < A.Data.length
                  ∧ v.Data[(k * v.Inc).toNat]? = A.Data[(A.Index i k).toNat]?)
            ∧ v.Check = none) := by
  obtain ⟨hr, hc, hs, hord⟩ := Check_none_facts A hfit hA
  obtain ⟨hR, hC, frow, fcol⟩ := id hfit
  constructor
  · constructor
    · intro h
      by_contra hcon
      have hin : ¬ (i ≥ A.Rows ∨ i < 0) := by omega
      unfold General.Row at h
      rw [if_neg hin] at h
      unfold sliceFrom at h
      split_ifs at h <;> simp at h
    · intro h
      unfold General.Row
      rw [if_pos (by omega)]
  · intro h0 h1 hne
    have hmul : i * A.Stride ≤ (A.Rows - 1) * A.Stride :=
      mul_le_mul_of_nonneg_right (by omega) (by omega)
    have hi0 : 0 ≤ i * A.Stride := mul_nonneg h0 (by omega)
    rcases hord with ⟨ho, hst, hlen⟩ | ⟨ho, hst, hlen⟩
    · have hf := frow ho
      have hwrap : imul A.Stride i = i * A.Stride := by
        have f1 : fits64 (i * A.Stride) := by
          unfold fits64 at *
          omega
        unfold imul
        rw [mul_comm, wrap64_of_fits _ f1]
      have hoff : (((i * A.Stride).toNat : Nat) : Int) = i * A.Stride :=
        Int.toNat_of_nonneg hi0
      refine ⟨⟨A.Data.drop (i * A.Stride).toNat, A.Cols, 1⟩, (i * A.Stride).toNat,
        ?_, rfl, by simp [ho], rfl, ?_, ?_⟩
      · unfold General.Row
        rw [if_neg (by omega), if_pos ho, hwrap,
          sliceFrom_ok A.Data (i * A.Stride) hi0 (by omega)]
      · intro k hk0 hk1
        have hidx : A.Index i k = i * A.Stride + k :=
          (index_row_major_eq A hfit ho hs i k h0 h1 hk0 hk1).1
        refine ⟨by rw [hidx, hoff]; ring, by rw [hidx]; omega, ?_⟩
        exact getElem?_drop_offset A.Data _ _ _ (by simpa using hk0)
          (by rw [hidx, hoff]; ring)
      · have hv : imul (isub A.Cols 1) 1 = A.Cols - 1 := by
          rw [isub_one_of_nonneg A.Cols hc hC]
          unfold imul
          rw [mul_one]
          apply wrap64_of_fits
          unfold fits64 at *
          omega
        unfold Vector.Check
        simp only [List.length_drop]
        rw [if_neg (by omega), if_neg (by decide), hv, if_neg]
        omega
    · have hf := fcol ho
      have hc1 : 1 ≤ A.Cols := by
        rcases hne with h | h
        · rw [ho] at h; cases h
        · exact h
      have hc0 : 0 ≤ (A.Cols - 1) * A.Stride := mul_nonneg (by omega) (by omega)
      refine ⟨⟨A.Data.drop i.toNat, A.Cols, A.Stride⟩, i.toNat,
        ?_, rfl, by simp [ho], rfl, ?_, ?_⟩
      · unfold General.Row
        rw [if_neg (by omega), if_neg (by rw [ho]; decide), if_pos ho,
          sliceFrom_ok A.Data i h0 (by omega)]
      · intro k hk0 hk1
        have hidx : A.Index i k = i + k * A.Stride :=
          (index_col_major_eq A hfit ho hs i k h0 h1 hk0 hk1).1
        have hk2 : k * A.Stride ≤ (A.Cols - 1) * A.Stride :=
          mul_le_mul_of_nonneg_right (by omega) (by omega)
        refine ⟨by rw [hidx, Int.toNat_of_nonneg h0], by rw [hidx]; omega, ?_⟩
        exact getElem?_drop_offset A.Data _ _ _
          (by show 0 ≤ k * A.Stride; exact mul_nonneg hk0 (by omega))
          (by rw [hidx, Int.toNat_of_nonneg h0])
      · have hv : imul (isub A.Cols 1) A.Stride = (A.Cols - 1) * A.Stride := by
          rw [isub_one_of_nonneg A.Cols hc hC]
          unfold imul
          exact wrap64_of_fits _ hf.1
        unfold Vector.Check
        simp only [List.length_drop]
        rw [if_neg (by omega), if_neg (by omega), hv, if_neg]
        omega

theorem General_Col_spec (A : General β) (hfit : A.ExtentFits) (hA : A.Check = none)
    (j : Int) :
    (A.Col j = .error .indexOutOfRange ↔ j < 0 ∨ A.Cols ≤ j)
      ∧ (0 ≤ j → j < A.Cols → (A.Order = .ColMajor ∨ 1 ≤ A.Rows) →
          ∃ (v : Vector β) (off : Nat), A.Col j = .ok v ∧ v.N = A.Rows
            ∧ v.Inc = (if A.Order = .RowMajor then A.Stride else 1)
            ∧ v.Data = A.Data.drop off
            ∧ (∀ k : Int, 0 ≤ k → k < A.Rows →
                (off : Int) + k * v.Inc = A.Index k j ∧ A.Index k j < A.Data.length
                  ∧ v.Data[(k * v.Inc).toNat]? = A.Data[(A.Index k j).toNat]?)
            ∧ v.Check = none) := by
  obtain ⟨hr, hc, hs, hord⟩ := Check_none_facts A hfit hA
  obtain ⟨hR, hC, frow, fcol⟩ := id hfit
  constructor
  · constructor
    · intro h
      by_contra hcon
      have hin : ¬ (j ≥ A.Cols ∨ j < 0) := by omega
      unfold General.Col at h
      rw [if_neg hin] at h
      unfold sliceFrom at h
      split_ifs at h <;> simp at h
    · intro h
      unfold General.Col
      rw [if_pos (by omega)]
  · intro h0 h1 hne
    have hmul : j * A.Stride ≤ (A.Cols - 1) * A.Stride :=
      mul_le_mul_of_nonneg_right (by omega) (by omega)
    have hj0 : 0 ≤ j * A.Stride := mul_nonneg h0 (by omega)
    rcases hord with ⟨ho, hst, hlen⟩ | ⟨ho, hst, hlen⟩
    · have hf := frow ho
      have hr1 : 1 ≤ A.Rows := by
        rcases hne with h | h
        · rw [ho] at h; cases h
        · exact h
      have hr0 : 0 ≤ (A.Rows - 1) * A.Stride := mul_nonneg (by omega) (by omega)
      refine ⟨⟨A.Data.drop j.toNat, A.Rows, A.Stride⟩, j.toNat,
        ?_, rfl, by simp [ho], rfl, ?_, ?_⟩
      · unfold General.Col
        rw [if_neg (by omega), if_pos ho, sliceFrom_ok A.Data j h0 (by omega)]
      · intro k hk0 hk1
        have hidx : A.Index k j = k * A.Stride + j :=
          (index_row_major_eq A hfit ho hs k j hk0 hk1 h0 h1).1
        have hk2 : k * A.Stride ≤ (A.Rows - 1) * A.Stride :=
          mul_le_mul_of_nonneg_right (by omega) (by omega)
        refine ⟨by rw [hidx, Int.toNat_of_nonneg h0]; ring, by rw [hidx]; omega, ?_⟩
        exact getElem?_drop_offset A.Data _ _ _
          (by show 0 ≤ k * A.Stride; exact mul_nonneg hk0 (by omega))
          (by rw [hidx, Int.toNat_of_nonneg h0]; ring)
      · have hv : imul (isub A.Rows 1) A.Stride = (A.Rows - 1) * A.Stride := by
          rw [isub_one_of_nonneg A.Rows hr hR]
          unfold imul
          exact wrap64_of_fits _ hf.1
        unfold Vector.Check
        simp only [List.length_drop]
        rw [if_neg (by omega), if_neg (by omega), hv, if_neg]
        omega
    · have hf := fcol ho
      have hwrap : imul A.Stride j = j * A.Stride := by
        have f1 : fits64 (j * A.Stride) := by
          unfold fits64 at *
          omega
        unfold imul
        rw [mul_comm, wrap64_of_fits _ f1]
      have hoff : (((j * A.Stride).toNat : Nat) : Int) = j * A.Stride :=
        Int.toNat_of_nonneg hj0
      refine ⟨⟨A.Data.drop (j * A.Stride).toNat, A.Rows, 1⟩, (j * A.Stride).toNat,
        ?_, rfl, by simp [ho], rfl, ?_, ?_⟩
      · unfold General.Col
        rw [if_neg (by omega), if_neg (by rw [ho]; decide), if_pos ho, hwrap,
          sliceFrom_ok A.Data (j * A.Stride) hj0 (by omega)]
      · intro k hk0 hk1
        have hidx : A.Index k j = k + j * A.Stride :=
          (index_col_major_eq A hfit ho hs k j hk0 hk1 h0 h1).1
        refine ⟨by rw [hidx, hoff]; ring, by rw [hidx]; omega, ?_⟩
        exact getElem?_drop_offset A.Data _ _ _ (by simpa using hk0)
          (by rw [hidx, hoff]; ring)
      · have hv : imul (isub A.Rows 1) 1 = A.Rows - 1 := by
          rw [isub_one_of_nonneg A.Rows hr hR]
          unfold imul
          rw [mul_one]
          apply wrap64_of_fits
          unfold fits64 at *
          omega
        unfold Vector.Check
        simp only [List.length_drop]
        rw [if_neg (by omega), if_neg (by decide), hv, if_neg]
        omega

theorem Vector_Check_pos_inc (v : Vector β) (hinc : 0 < v.Inc) (hN : fits64 v.N)
    (hfit : fits64 ((v.N - 1) * v.Inc)) :
    v.Check = none ↔ 0 ≤ v.N ∧ (v.N - 1) * |v.Inc| < v.Data.length := by
  unfold Vector.Check
  rw [abs_of_pos hinc]
  by_cases h0 : v.N < 0
  · rw [if_pos h0]
    simp
    omega
  · have hv : imul (isub v.N 1) v.Inc = (v.N - 1) * v.Inc := by
      rw [isub_one_of_nonneg v.N (by omega) hN]
      unfold imul
      exact wrap64_of_fits _ hfit
    rw [if_neg h0, if_neg (by omega), hv]
    split_ifs <;> simp <;> omega

end Zbw
